import Mathlib

/-
Verification of the FMU-discipline core of gemseo-fmu.

The development is a shallow embedding of
`src/gemseo_fmu/disciplines/base_fmu_discipline.py` (class `BaseFMUDiscipline`):
time and variable values are exact rationals, the wrapped FMU slave is an
abstract state machine `SlaveModel`, Python dictionaries are association lists,
and a raised exception is an `Option FmuError` value travelling next to the
(possibly partially mutated) discipline state, mirroring the fact that in
Python the mutations made before a `raise` survive.

The `TimeSeries` component (`gemseo_fmu/disciplines/time_series.py`) and the
external integrator `fmpy.simulate_fmu` are not part of the sources; their
definitions below are modelled from the specification and are marked as such
in their doc comments.
-/

namespace GemseoFmu

/-! ### Association lists: the model of Python dictionaries -/

/-- Lookup in an association list: the value bound to the first pair whose key
is `k`, mirroring a Python dictionary access. -/
def alist_get {α : Type} (l : List (String × α)) (k : String) : Option α :=
  match l with
  | [] => none
  | (k', v) :: rest => if k' = k then some v else alist_get rest k

/-- Assignment in an association list: replace the first binding of `k`, or
append a fresh binding, mirroring a Python dictionary item assignment. -/
def alist_set {α : Type} (l : List (String × α)) (k : String) (v : α) : List (String × α) :=
  match l with
  | [] => [(k, v)]
  | (k', v') :: rest => if k' = k then (k, v) :: rest else (k', v') :: alist_set rest k v

/-- Sequential assignment of several bindings, mirroring a Python dictionary
update performed key by key. -/
def storeAll {α : Type} (l : List (String × α)) : List (String × α) → List (String × α)
  | [] => l
  | (k, v) :: rest => storeAll (alist_set l k v) rest

/-- The keys of an association list. -/
def alist_keys {α : Type} (l : List (String × α)) : List String :=
  l.map Prod.fst

/-! ### The time-series component -/

/-- A time series: a pair of sequences of time points and observable values
(spec section 3, data model of the repository module
`gemseo_fmu.disciplines.time_series`, whose tests show the two fields and the
length validation). -/
structure TimeSeries where
  time : List ℚ
  observable : List ℚ

/-- The accumulator walk underlying the hold evaluation of a time series: keep
the value attached to the last time point not exceeding `t`, stopping at the
first larger time point. -/
def holdValue : List (ℚ × ℚ) → ℚ → ℚ → ℚ
  | [], _, acc => acc
  | (ti, vi) :: rest, t, acc => if ti ≤ t then holdValue rest t vi else acc

/-- Modelled from the spec: the method `TimeSeries.compute` of the repository
module `gemseo_fmu.disciplines.time_series`, absent from the sources.  Per spec
sections 3 and 4.B the hold query returns the value at the greatest stored time
not exceeding the query time and a query below the first stored time fails
with `TimeOutOfRange`, modelled here by `none`.  The tests of the repository
(`tests/disciplines/test_time_series.py`) pin `compute` to exactly this stairs
behaviour. -/
def TimeSeries.compute (ts : TimeSeries) (t : ℚ) : Option ℚ :=
  match ts.time, ts.observable with
  | t0 :: _, v0 :: _ =>
    if t < t0 then none else some (holdValue (ts.time.zip ts.observable) t v0)
  | _, _ => none

/-- The pair with the greatest first component, preferring the earlier pair on
ties. -/
def maxKeyPair : List (ℚ × ℚ) → Option (ℚ × ℚ)
  | [] => none
  | p :: rest =>
    match maxKeyPair rest with
    | none => some p
    | some q => if q.1 < p.1 then some p else some q

/-- Modelled from the spec: the hold semantics stated in the words of spec
section 4.B, for comparison with the executable `TimeSeries.compute` above:
return the value attached to the greatest stored time point not exceeding the
query time, and fail below the first stored time. -/
def TimeSeries.hold_query (ts : TimeSeries) (t : ℚ) : Option ℚ :=
  (maxKeyPair ((ts.time.zip ts.observable).filter (fun p => decide (p.1 ≤ t)))).map Prod.snd

/-- The recursion underlying the linear semantics of a time series. -/
def linAux : List (ℚ × ℚ) → ℚ → Option ℚ
  | [], _ => none
  | [(t0, v0)], t => if t < t0 then none else some v0
  | (t0, v0) :: (t1, v1) :: rest, t =>
    if t < t0 then none
    else if t ≤ t1 then some (v0 + (v1 - v0) * (t - t0) / (t1 - t0))
    else linAux ((t1, v1) :: rest) t

/-- Modelled from the spec: the linear semantics of a time series (spec
sections 3 and 4.B): piecewise-linear interpolation between bracketing points,
the held endpoint value past the last time point, and failure below the first
time point. -/
def TimeSeries.linear_interpolation (ts : TimeSeries) (t : ℚ) : Option ℚ :=
  linAux (ts.time.zip ts.observable) t

/-! ### The discipline state -/

/-- The simulation settings of a `BaseFMUDiscipline`: the dictionary held in
`__default_simulation_settings` and `__simulation_settings`.  The key
`simulation_time` is only present when the discipline does not run step by
step, hence the `Option`. -/
structure SimulationSettings where
  restart : Bool
  time_step : ℚ
  simulation_time : Option ℚ
deriving DecidableEq

/-- The FMI slave handle: the subset of the fmpy model interface exercised by
`BaseFMUDiscipline`, abstracted over its internal state `σ`. -/
structure SlaveModel (σ : Type) where
  reset : σ → σ
  setupExperiment : σ → ℚ → σ
  enterInitializationMode : σ → σ
  exitInitializationMode : σ → σ
  doStep : σ → ℚ → ℚ → σ
  setReal : σ → Nat → ℚ → σ
  getReal : σ → Nat → ℚ

/-- A value supplied to `execute`: a numeric array, a `TimeSeries`, or a
time-indexed callable.  A callable returning `none` models a `ValueError`
raised at the evaluation time. -/
inductive InputValue where
  | arr : List ℚ → InputValue
  | series : TimeSeries → InputValue
  | func : (ℚ → Option ℚ) → InputValue

/-- The errors raised by the embedded discipline code.
`currentExceedsFinal` is the `ValueError` of the `_current_time` setter,
`alreadyAtFinalTime` the `ValueError` of `_run`, `valueError` a `ValueError`
escaping the entry conversion of `execute`, and `keyError` a missing
`simulation_time` key. -/
inductive FmuError where
  | currentExceedsFinal (current_time final_time : ℚ)
  | alreadyAtFinalTime (current_time : ℚ)
  | valueError
  | keyError
deriving DecidableEq

/-- The state of a `BaseFMUDiscipline`, field by field after the private
attributes of the Python class (namespaces of the grammars are not modelled;
the `time` output of the grammar is always present, as with the default
`add_time_to_output_grammar = True`). -/
structure Disc (σ : Type) where
  initial_time : ℚ
  final_time : ℚ
  current_time : ℚ
  do_step : Bool
  default_simulation_settings : SimulationSettings
  simulation_settings : Option SimulationSettings
  input_names : List String
  output_names : List String
  names_to_references : List (String × Nat)
  names_to_time_functions : List (String × (ℚ → Option ℚ))
  causalities_to_variable_names : List (String × List String)
  default_inputs : List (String × InputValue)
  local_data : List (String × List ℚ)
  time : Option (List ℚ)
  model : σ
  log : List String

/-- The value reference bound to a variable name (`__names_to_references`). -/
def refOf {σ : Type} (d : Disc σ) (name : String) : Nat :=
  (alist_get d.names_to_references name).getD 0

/-- The settings used by the running execution: `_run` falls back to the
default settings when `__simulation_settings` is empty. -/
def effectiveSettings {σ : Type} (d : Disc σ) : SimulationSettings :=
  d.simulation_settings.getD d.default_simulation_settings

/-- `get_input_data(with_namespaces=False)`: the local data restricted to the
input names. -/
def getInputData {σ : Type} (d : Disc σ) : List (String × List ℚ) :=
  d.input_names.filterMap (fun n => (alist_get d.local_data n).map (fun v => (n, v)))

/-! ### The operations of `BaseFMUDiscipline` -/

/-- The setter of `_current_time` (lines 525-542): refuse a current time
greater than the final time, otherwise store it. -/
def setCurrentTime {σ : Type} (d : Disc σ) (t : ℚ) : Disc σ × Option FmuError :=
  if t > d.final_time then (d, some (FmuError.currentExceedsFinal t d.final_time))
  else ({ d with current_time := t }, none)

/-- `set_next_execution` (lines 581-613): copy the default settings and apply
the requested one-shot overrides. -/
def set_next_execution {σ : Type} (d : Disc σ) (restart : Option Bool)
    (simulation_time : Option ℚ) (time_step : Option ℚ) : Disc σ :=
  let s := d.default_simulation_settings
  let s := match time_step with
    | some ts => { s with time_step := ts }
    | none => s
  let s := match restart with
    | some r => { s with restart := r }
    | none => s
  let s := match simulation_time with
    | some st => { s with simulation_time := some st }
    | none => s
  { d with simulation_settings := some s }

/-- `__set_model_inputs` (lines 678-700): write every input to the slave; an
input registered as a time function is re-evaluated at `time`, a `ValueError`
(`none`) being swallowed by the `continue`; with `store` the evaluated value
is also recorded in the local data. -/
def set_model_inputs {σ : Type} (sm : SlaveModel σ) :
    Disc σ → List (String × List ℚ) → ℚ → Bool → Disc σ
  | d, [], _, _ => d
  | d, (input_name, input_value) :: rest, time, store =>
    match alist_get d.names_to_time_functions input_name with
    | some f =>
      match f time with
      | none => set_model_inputs sm d rest time store
      | some value =>
        let d1 := if store then
            { d with local_data := alist_set d.local_data input_name [value] }
          else d
        set_model_inputs sm
          { d1 with model := sm.setReal d1.model (refOf d1 input_name) value } rest time store
    | none =>
      set_model_inputs sm
        { d with model := sm.setReal d.model (refOf d input_name) input_value.headI }
        rest time store

/-- The loop of `__do_when_step_finished` over the registered time functions. -/
def dwsf_loop {σ : Type} (sm : SlaveModel σ) :
    Disc σ → List (String × (ℚ → Option ℚ)) → ℚ → Disc σ
  | d, [], _ => d
  | d, (name, f) :: rest, time =>
    match f time with
    | none => dwsf_loop sm d rest time
    | some value =>
      let d1 := { d with model := sm.setReal d.model (refOf d name) value }
      let d2 := { d1 with
        local_data :=
          alist_set d1.local_data name (((alist_get d1.local_data name).getD []) ++ [value]) }
      dwsf_loop sm d2 rest time

/-- `__do_when_step_finished` (lines 702-720): at an internal integration
point, re-evaluate every registered time function, swallow a `ValueError`
(`none`) with the `continue`, write the successful values to the slave and
append them to the local data. -/
def do_when_step_finished {σ : Type} (sm : SlaveModel σ) (d : Disc σ) (time : ℚ) : Disc σ :=
  dwsf_loop sm d d.names_to_time_functions time

/-- The integration loop of the external integrator: advance the slave to each
integration point, fire the step-finished callback there, and record the
declared outputs. -/
def sim_loop {σ : Type} (sm : SlaveModel σ) :
    Disc σ → ℚ → List ℚ → Disc σ × List (List ℚ)
  | d, _, [] => (d, [])
  | d, prev, t :: rest =>
    let d1 := { d with model := sm.doStep d.model prev (t - prev) }
    let d2 := do_when_step_finished sm d1 t
    let row := d2.output_names.map (fun n => sm.getReal d2.model (refOf d2 n))
    let res := sim_loop sm d2 t rest
    (res.1, row :: res.2)

/-- Modelled from the spec: the external integrator `fmpy.simulate_fmu`, an
out-of-scope collaborator (spec section 1), behaving as spec section 4.D steps
4 and 5 require: the slave is advanced across the internal integration points
`pts`, the step-finished callback of the discipline is invoked after every
internal step, and the declared outputs are sampled at the integration grid. -/
def simulate_fmu {σ : Type} (sm : SlaveModel σ) (d : Disc σ) (pts : List ℚ) :
    Disc σ × List (List ℚ) :=
  sim_loop sm d d.current_time pts

/-- The per-output columns extracted from the recorded rows, the output at
position `i` of a row belonging to the output name at position `i`. -/
def outputColumnsAux (rows : List (List ℚ)) : List String → Nat → List (String × List ℚ)
  | [], _ => []
  | n :: rest, i => (n, rows.map (fun r => r.getD i 0)) :: outputColumnsAux rows rest (i + 1)

/-- The columns stored after a run to final time: the time column and, for
each declared output, the column of its recorded samples. -/
def outputColumns (output_names : List String) (result_time : List ℚ)
    (rows : List (List ℚ)) : List (String × List ℚ) :=
  ("time", result_time) :: outputColumnsAux rows output_names 0

/-- The warning logged when the requested stop time overflows the final time
(lines 733-740). -/
def overshootWarning : String :=
  "The cumulated simulation time exceeds the final time set at instantiation; stop the simulation at final time."

/-- `__run_one_step` (lines 653-676): advance the slave by one time step,
evaluating the inputs at the arrival time, then store the single output row;
the `_current_time` setter may raise after the step, in which case the row is
not stored. -/
def run_one_step {σ : Type} (sm : SlaveModel σ) (d : Disc σ)
    (input_data : List (String × List ℚ)) : Disc σ × Option FmuError :=
  let time_step := (effectiveSettings d).time_step
  let final_time := d.current_time + time_step
  let d1 := set_model_inputs sm d input_data final_time true
  let d2 := { d1 with model := sm.doStep d1.model d1.current_time time_step }
  let d3 := { d2 with time := some [final_time] }
  match setCurrentTime d3 final_time with
  | (d4, some e) => (d4, some e)
  | (d4, none) =>
    let output_data :=
      ("time", [final_time]) ::
        d4.output_names.map (fun n => (n, [sm.getReal d4.model (refOf d4 n)]))
    ({ d4 with local_data := storeAll d4.local_data output_data }, none)

/-- `__run_to_final_time` (lines 722-762): clamp the requested stop time to
the final time with a logged warning, write the inputs at the current time,
delegate to the external integrator, store the resulting columns and advance
the current time to the stop time. -/
def run_to_final_time {σ : Type} (sm : SlaveModel σ) (d : Disc σ)
    (input_data : List (String × List ℚ)) (pts : List ℚ) : Disc σ × Option FmuError :=
  match (effectiveSettings d).simulation_time with
  | none => (d, some FmuError.keyError)
  | some simulation_time =>
    let start_time := d.current_time
    let stop0 := start_time + simulation_time
    let stop_time := if stop0 > d.final_time then d.final_time else stop0
    let d1 := if stop0 > d.final_time then { d with log := d.log ++ [overshootWarning] } else d
    let d2 := set_model_inputs sm d1 input_data d1.current_time false
    let res := simulate_fmu sm d2 pts
    let d3 := { res.1 with time := some pts }
    let d4 := { d3 with
      local_data := storeAll d3.local_data (outputColumns d3.output_names pts res.2) }
    setCurrentTime d4 stop_time

/-- The restart handling opening `_run` (lines 619-632): when the effective
restart setting holds or the current time is back at the initial time, rewind
the current time and reset, set up and re-initialize the slave. -/
def restartBlock {σ : Type} (sm : SlaveModel σ) (s : SimulationSettings) (d : Disc σ) : Disc σ :=
  if s.restart = true ∨ d.current_time = d.initial_time then
    { d with
      current_time := d.initial_time,
      model := sm.exitInitializationMode (sm.enterInitializationMode
        (sm.setupExperiment (sm.reset d.model) d.initial_time)) }
  else d

/-- The dispatch of `_run` (lines 641-643): read the input data from the
local data and simulate one step or up to the final time. -/
def runDispatch {σ : Type} (sm : SlaveModel σ) (d : Disc σ) (pts : List ℚ) :
    Disc σ × Option FmuError :=
  if d.do_step then run_one_step sm d (getInputData d)
  else run_to_final_time sm d (getInputData d) pts

/-- The tail of `_run` (line 644): on success the simulation settings are
cleared; a raised exception leaves them in place. -/
def runFinish {σ : Type} : Disc σ × Option FmuError → Disc σ × Option FmuError
  | (d, some e) => (d, some e)
  | (d, none) => ({ d with simulation_settings := none }, none)

/-- `_run` (lines 615-644): fill the settings from the defaults when empty,
apply the restart handling, refuse to run from the final time when it is past
the initial time, dispatch on `do_step`, and clear the settings on success
(on an exception the Python attribute keeps its value, as modelled here). -/
def run {σ : Type} (sm : SlaveModel σ) (d : Disc σ) (pts : List ℚ) : Disc σ × Option FmuError :=
  let s := effectiveSettings d
  let d1 := restartBlock sm s { d with simulation_settings := some s }
  if d1.initial_time < d1.current_time ∧ d1.current_time = d1.final_time then
    (d1, some (FmuError.alreadyAtFinalTime d1.current_time))
  else runFinish (runDispatch sm d1 pts)

/-! ### The entry of `execute` -/

/-- `_filter_inputs`: complete the passed input data with the default inputs,
restricted to the input names of the grammar. -/
def filterInputs {σ : Type} (d : Disc σ) (input_data : List (String × InputValue)) :
    List (String × InputValue) :=
  d.input_names.filterMap (fun n =>
    match alist_get input_data n with
    | some v => some (n, v)
    | none => (alist_get d.default_inputs n).map (fun v => (n, v)))

/-- The time functions registered at the entry of `execute` (lines 559-568):
the `compute` method of every `TimeSeries` value and every callable value. -/
def entryTimeFunctions : List (String × InputValue) → List (String × (ℚ → Option ℚ))
  | [] => []
  | (n, InputValue.series ts) :: rest => (n, fun t => ts.compute t) :: entryTimeFunctions rest
  | (n, InputValue.func f) :: rest => (n, f) :: entryTimeFunctions rest
  | (_, InputValue.arr _) :: rest => entryTimeFunctions rest

/-- The conversion applied at the entry of `execute` (lines 569-578): a
`TimeSeries` becomes the one-element array of its first observable value and a
callable is evaluated at the current time `t`; a failing callable raises. -/
def convertEntryValue (t : ℚ) : InputValue → Option (List ℚ)
  | InputValue.arr v => some v
  | InputValue.series ts => some [ts.observable.headI]
  | InputValue.func f => (f t).map (fun v => [v])

/-- The entry conversion of the whole input mapping; `none` models the
`ValueError` of a failing callable escaping from `execute`. -/
def convertAll (t : ℚ) : List (String × InputValue) → Option (List (String × List ℚ))
  | [] => some []
  | (n, v) :: rest =>
    match convertEntryValue t v, convertAll t rest with
    | some a, some r => some ((n, a) :: r)
    | _, _ => none

/-- The input data handed to the engine by `execute` after the entry
conversion. -/
def executeEntry {σ : Type} (d : Disc σ) (input_data : List (String × InputValue)) :
    Option (List (String × List ℚ)) :=
  convertAll d.current_time (filterInputs d input_data)

/-- `execute` (lines 551-579) followed by the engine: filter the inputs,
register the time functions, convert the values, store them in the local data
and run. -/
def executeDisc {σ : Type} (sm : SlaveModel σ) (d : Disc σ)
    (input_data : List (String × InputValue)) (pts : List ℚ) : Disc σ × Option FmuError :=
  let full := filterInputs d input_data
  let d0 := { d with names_to_time_functions := entryTimeFunctions full }
  match convertAll d.current_time full with
  | none => (d0, some FmuError.valueError)
  | some full_arrays =>
    let d1 := { d0 with local_data := storeAll d0.local_data full_arrays }
    run sm d1 pts

/-! ### The model-type selection of the constructor -/

def CO_SIMULATION : String := "CoSimulation"

def MODEL_EXCHANGE : String := "ModelExchange"

/-- The warning logged when a do-step request forces co-simulation. -/
def doStepCoSimulationWarning : String :=
  "The FMUDiscipline requires a co-simulation model when do_step is True."

/-- The kinds offered by an FMU archive, read from its model description. -/
structure ModelKinds where
  supportsCoSimulation : Bool
  supportsModelExchange : Bool
deriving DecidableEq

/-- The model-type selection of `__set_fmu_model` (lines 399-413), identical
to the selection in `FMUDiscipline.__init__` (fmu_discipline.py lines
254-271): pick the kind from `use_co_simulation`, then force co-simulation
with a logged warning when `do_step` asks for step-by-step control; the
supported kinds of the FMU are not consulted. -/
def selectModelType (kinds : ModelKinds) (do_step : Bool) (use_co_simulation : Bool) :
    String × List String :=
  let model_type := if use_co_simulation then CO_SIMULATION else MODEL_EXCHANGE
  if do_step && !use_co_simulation then (CO_SIMULATION, [doStepCoSimulationWarning])
  else (model_type, [])

/-! ### Analysis artifacts: explicit write lists

The following definitions are not part of the source; they give closed forms
for the slave writes and local-data writes performed by the engine, proved
equal to the engine below. -/

/-- The slave writes of one `__set_model_inputs` pass: a registered time
function contributes its value at `time` when the evaluation succeeds and is
skipped otherwise; a plain input contributes its first array entry. -/
def written_values (fns : List (String × (ℚ → Option ℚ))) (xs : List (String × List ℚ))
    (t : ℚ) : List (String × ℚ) :=
  xs.filterMap (fun p =>
    match alist_get fns p.1 with
    | some f => (f t).map (fun v => (p.1, v))
    | none => some (p.1, p.2.headI))

/-- The local-data writes of a storing `__set_model_inputs` pass: only the
successfully evaluated time functions are recorded. -/
def stored_inputs (fns : List (String × (ℚ → Option ℚ))) (xs : List (String × List ℚ))
    (t : ℚ) : List (String × List ℚ) :=
  xs.filterMap (fun p =>
    match alist_get fns p.1 with
    | some f => (f t).map (fun v => (p.1, [v]))
    | none => none)

/-- The slave writes of one step-finished callback: every registered time
function whose evaluation at `t` succeeds, in registration order. -/
def step_finished_writes (fns : List (String × (ℚ → Option ℚ))) (t : ℚ) :
    List (String × ℚ) :=
  fns.filterMap (fun p => (p.2 t).map (fun v => (p.1, v)))

/-- Application of a list of writes to the slave. -/
def applyWrites {σ : Type} (sm : SlaveModel σ) (refs : List (String × Nat))
    (ws : List (String × ℚ)) (m : σ) : σ :=
  ws.foldl (fun m p => sm.setReal m ((alist_get refs p.1).getD 0) p.2) m

/-- The slave-state and output-row computation of the integration loop,
expressed on the slave state alone: it depends only on the registered time
functions, the references, the declared outputs and the starting state. -/
def sim_core {σ : Type} (sm : SlaveModel σ) (fns : List (String × (ℚ → Option ℚ)))
    (refs : List (String × Nat)) (outs : List String) :
    σ → ℚ → List ℚ → σ × List (List ℚ)
  | m, _, [] => (m, [])
  | m, prev, t :: rest =>
    let m2 := applyWrites sm refs (step_finished_writes fns t) (sm.doStep m prev (t - prev))
    let row := outs.map (fun n => sm.getReal m2 ((alist_get refs n).getD 0))
    let res := sim_core sm fns refs outs m2 t rest
    (res.1, row :: res.2)

/-- The time invariant of the discipline: the current time lies between the
initial and the final time. -/
def TimeInv {σ : Type} (d : Disc σ) : Prop :=
  d.initial_time ≤ d.current_time ∧ d.current_time ≤ d.final_time

/-! ### Concrete instances for witness executions -/

/-- A trivial slave with no observable state, for concrete executions. -/
def unitSlave : SlaveModel Unit where
  reset _ := ()
  setupExperiment _ _ := ()
  enterInitializationMode _ := ()
  exitInitializationMode _ := ()
  doStep _ _ _ := ()
  setReal _ _ _ := ()
  getReal _ _ := 0

/-- A slave whose state is the journal of the `setReal` calls it received, to
observe which values reach the FMU. -/
def logSlave : SlaveModel (List (Nat × ℚ)) where
  reset _ := []
  setupExperiment m _ := m
  enterInitializationMode m := m
  exitInitializationMode m := m
  doStep m _ _ := m
  setReal m r v := m ++ [(r, v)]
  getReal m r := ((m.reverse.find? (fun p => p.1 == r)).map Prod.snd).getD 0

/-- A concrete discipline state over a given slave state, used to witness the
claims on concrete runs. -/
def mkDisc {σ : Type} (model : σ) (initial final current : ℚ)
    (do_step restart : Bool) (time_step : ℚ) (simulation_time : Option ℚ)
    (fns : List (String × (ℚ → Option ℚ))) : Disc σ where
  initial_time := initial
  final_time := final
  current_time := current
  do_step := do_step
  default_simulation_settings :=
    { restart := restart, time_step := time_step, simulation_time := simulation_time }
  simulation_settings := none
  input_names := []
  output_names := ["y"]
  names_to_references := [("y", 1), ("u", 7)]
  names_to_time_functions := fns
  causalities_to_variable_names := [("input", ["u"]), ("output", ["y"])]
  default_inputs := []
  local_data := [("y", [0]), ("u", [0])]
  time := none
  model := model
  log := []

/-- The time series of the entry-conversion witness. -/
def tsC10 : TimeSeries := ⟨[0, 1], [5, 6]⟩

/-- The discipline of the entry-conversion witness: one declared input `u`. -/
def discC10 : Disc Unit :=
  { mkDisc () 0 2 0 false false 1 none [] with input_names := ["u"] }

/-- The input mapping of the entry-conversion witness. -/
def inputC10 : List (String × InputValue) := [("u", InputValue.series tsC10)]

/-- The converted arrays of the entry-conversion witness. -/
def arrsC10 : List (String × List ℚ) := [("u", [5])]

/-- A time function failing at every time, to observe the swallowed
`ValueError`. -/
def funC9 : ℚ → Option ℚ := fun _ => none

/-- The registered time functions of the value-error witness. -/
def fnsC9 : List (String × (ℚ → Option ℚ)) := [("u", funC9)]

/-- The discipline of the value-error witness: its single registered time
function fails at every time. -/
def discC9 : Disc Unit := mkDisc () 0 2 0 false false 1 (some 1) fnsC9

/-- The time series of the causality counterexample: value 0 at time 0 and
value 4 at time 2, so that hold and linear interpolation disagree at time 1. -/
def tsC2 : TimeSeries := ⟨[0, 2], [0, 4]⟩

/-- The registered time functions of the causality counterexample: the input
`u` carries the `compute` method of the series, as `execute` registers it. -/
def fnsC2 : List (String × (ℚ → Option ℚ)) := [("u", fun u => tsC2.compute u)]

/-- The discipline of the causality counterexample: `u` has causality `input`
in `causalities_to_variable_names`, the slave journals its `setReal` calls. -/
def discC2 : Disc (List (Nat × ℚ)) := mkDisc [] 0 2 0 false false 1 (some 2) fnsC2

/-- The discipline of the do-step witness: initial time 0, final time 2,
current time 1, step-by-step control with time step 1. -/
def discC3 : Disc Unit := mkDisc () 0 2 1 true false 1 none []

/-- The fields of the do-step scenario state preserved by every `execute`
call: the scenario discipline of spec section 4.C. -/
def ChainInv (d : Disc Unit) : Prop :=
  d.initial_time = 0 ∧ d.final_time = 2 ∧ d.do_step = true ∧
  d.default_simulation_settings = ⟨false, 1/5, none⟩ ∧
  d.simulation_settings = none ∧ d.input_names = [] ∧ d.output_names = ["y"]

/-- The do-step scenario: start at time 0 with time step 1/5 and final time 2,
and call `execute` repeatedly with no inputs. -/
def execChain : Nat → Disc Unit × Option FmuError
  | 0 => (mkDisc () 0 2 0 true false (1/5) none [], none)
  | k + 1 => executeDisc unitSlave (execChain k).1 [] []

/-- Whether an `execute` input value is independent of the evaluation time at
the entry conversion: arrays and time series are, callables are not. -/
def isTimeIndep : InputValue → Bool
  | InputValue.func _ => false
  | _ => true

/-- The initialization bracketing performed by the restart handling: reset,
set up the experiment at the start time, enter and exit initialization. -/
def initModel {σ : Type} (sm : SlaveModel σ) (m : σ) (t : ℚ) : σ :=
  sm.exitInitializationMode (sm.enterInitializationMode (sm.setupExperiment (sm.reset m) t))

/-- The discipline state handed to `_run` by `execute`: time functions
registered, converted arrays stored. -/
def entryDisc {σ : Type} (d : Disc σ) (inp : List (String × InputValue))
    (a : List (String × List ℚ)) : Disc σ :=
  { d with
    names_to_time_functions := entryTimeFunctions (filterInputs d inp),
    local_data := storeAll d.local_data a }

/-- The output columns stored by a restarted run to final time, as determined
by the state before the run. -/
def runColumns {σ : Type} (sm : SlaveModel σ) (d : Disc σ) (pts : List ℚ) :
    List (String × List ℚ) :=
  outputColumns d.output_names pts
    (sim_core sm d.names_to_time_functions d.names_to_references d.output_names
      (applyWrites sm d.names_to_references
        (written_values d.names_to_time_functions (getInputData d) d.initial_time)
        (initModel sm d.model d.initial_time))
      d.initial_time pts).2

/-- The discipline of the determinism witness: restarting, not step-by-step,
with simulation time 2. -/
def discC6 : Disc Unit := mkDisc () 0 2 0 false true 1 (some 2) []

/-! ### Lemmas about association lists -/

theorem alist_get_set_self {α : Type} (l : List (String × α)) (k : String) (v : α) :
    alist_get (alist_set l k v) k = some v := by
  induction l with
  | nil => simp [alist_set, alist_get]
  | cons p rest ih =>
    by_cases h : p.1 = k
    · simp [alist_set, alist_get, h]
    · simp only [alist_set, alist_get]
      rw [if_neg h, alist_get, if_neg h]
      exact ih

theorem alist_get_set_ne {α : Type} (l : List (String × α)) (k k' : String) (v : α)
    (h : k' ≠ k) : alist_get (alist_set l k v) k' = alist_get l k' := by
  induction l with
  | nil =>
    simp only [alist_set, alist_get]
    rw [if_neg (Ne.symm h)]
  | cons p rest ih =>
    simp only [alist_set]
    by_cases hp : p.1 = k
    · rw [if_pos hp]
      simp only [alist_get]
      rw [if_neg (Ne.symm h), if_neg (by rw [hp]; exact Ne.symm h)]
    · rw [if_neg hp]
      simp only [alist_get]
      by_cases hp' : p.1 = k'
      · rw [if_pos hp', if_pos hp']
      · rw [if_neg hp', if_neg hp', ih]

theorem alist_get_eq_none {α : Type} (l : List (String × α)) (k : String)
    (h : k ∉ alist_keys l) : alist_get l k = none := by
  induction l with
  | nil => rfl
  | cons p rest ih =>
    simp only [alist_keys, List.map_cons, List.mem_cons] at h
    push_neg at h
    simp only [alist_get]
    rw [if_neg (Ne.symm h.1)]
    exact ih (by simpa [alist_keys] using h.2)

theorem alist_get_isSome_of_mem {α : Type} (l : List (String × α)) (k : String)
    (h : k ∈ alist_keys l) : (alist_get l k).isSome := by
  induction l with
  | nil => simp [alist_keys] at h
  | cons p rest ih =>
    simp only [alist_keys, List.map_cons, List.mem_cons] at h
    by_cases hp : p.1 = k
    · simp [alist_get, hp]
    · simp only [alist_get, if_neg hp]
      exact ih (h.resolve_left (fun hk => hp hk.symm))

theorem alist_get_append {α : Type} (l₁ l₂ : List (String × α)) (k : String) :
    alist_get (l₁ ++ l₂) k =
      match alist_get l₁ k with
      | some v => some v
      | none => alist_get l₂ k := by
  induction l₁ with
  | nil => simp [alist_get]
  | cons p rest ih =>
    by_cases hp : p.1 = k
    · simp [alist_get, hp]
    · simpa [alist_get, hp] using ih

theorem alist_keys_reverse {α : Type} (l : List (String × α)) (k : String) :
    k ∈ alist_keys l.reverse ↔ k ∈ alist_keys l := by
  simp [alist_keys]

theorem storeAll_get_not_mem {α : Type} (u : List (String × α)) (l : List (String × α))
    (k : String) (h : k ∉ alist_keys u) : alist_get (storeAll l u) k = alist_get l k := by
  induction u generalizing l with
  | nil => rfl
  | cons p rest ih =>
    simp only [alist_keys, List.map_cons, List.mem_cons] at h
    push_neg at h
    simp only [storeAll]
    rw [ih (alist_set l p.1 p.2) (by simpa [alist_keys] using h.2)]
    exact alist_get_set_ne _ _ _ _ h.1

theorem storeAll_get_mem {α : Type} (u : List (String × α)) (l : List (String × α))
    (k : String) (h : k ∈ alist_keys u) :
    alist_get (storeAll l u) k = alist_get u.reverse k := by
  induction u generalizing l with
  | nil => simp [alist_keys] at h
  | cons p rest ih =>
    simp only [storeAll, List.reverse_cons]
    by_cases hr : k ∈ alist_keys rest
    · rw [ih _ hr, alist_get_append]
      have hs : (alist_get rest.reverse k).isSome :=
        alist_get_isSome_of_mem _ _ ((alist_keys_reverse rest k).mpr hr)
      obtain ⟨v, hv⟩ := Option.isSome_iff_exists.mp hs
      rw [hv]
    · have hk : p.1 = k := by
        simp only [alist_keys, List.map_cons, List.mem_cons] at h
        exact (h.resolve_right hr).symm
      rw [storeAll_get_not_mem _ _ _ hr, alist_get_append,
        alist_get_eq_none _ _ (fun hm => hr ((alist_keys_reverse rest k).mp hm))]
      simp [alist_get, hk, alist_get_set_self]

/-- The value bound by `storeAll` to a stored key is determined by the stored
bindings alone, not by the receiving dictionary. -/
theorem storeAll_get_mem_congr {α : Type} (u : List (String × α))
    (l l' : List (String × α)) (k : String) (h : k ∈ alist_keys u) :
    alist_get (storeAll l u) k = alist_get (storeAll l' u) k := by
  rw [storeAll_get_mem _ _ _ h, storeAll_get_mem _ _ _ h]

/-- In an association list with pairwise distinct keys, membership determines
the lookup. -/
theorem alist_get_of_mem_nodup {α : Type} (l : List (String × α)) (n : String) (a : α)
    (hnd : (alist_keys l).Nodup) (hmem : (n, a) ∈ l) : alist_get l n = some a := by
  induction l with
  | nil => cases hmem
  | cons p rest ih =>
    obtain ⟨n0, a0⟩ := p
    simp only [alist_keys, List.map_cons, List.nodup_cons] at hnd
    rcases List.mem_cons.mp hmem with heq | hrest
    · obtain ⟨h1, h2⟩ := Prod.mk.injEq .. ▸ heq
      subst h1
      subst h2
      simp [alist_get]
    · have hne : n0 ≠ n := by
        intro hc
        subst hc
        exact hnd.1 (by simpa [alist_keys] using List.mem_map_of_mem Prod.fst hrest)
      simp only [alist_get, if_neg hne]
      exact ih hnd.2 hrest

/-- Storing a binding followed by bindings of other keys leaves the first
binding readable. -/
theorem storeAll_cons_get_head {α : Type} (l : List (String × α)) (k : String) (v : α)
    (rest : List (String × α)) (h : k ∉ alist_keys rest) :
    alist_get (storeAll l ((k, v) :: rest)) k = some v := by
  show alist_get (storeAll (alist_set l k v) rest) k = some v
  rw [storeAll_get_not_mem _ _ _ h]
  exact alist_get_set_self _ _ _

/-! ### Frame lemmas: which fields each operation can touch -/

theorem set_model_inputs_shape {σ : Type} (sm : SlaveModel σ) (xs : List (String × List ℚ))
    (d : Disc σ) (t : ℚ) (st : Bool) :
    ∃ m ld, set_model_inputs sm d xs t st = { d with model := m, local_data := ld } := by
  induction xs generalizing d with
  | nil => exact ⟨d.model, d.local_data, rfl⟩
  | cons p rest ih =>
    obtain ⟨n, v⟩ := p
    cases hf : alist_get d.names_to_time_functions n with
    | none =>
      simp only [set_model_inputs, hf]
      obtain ⟨m, ld, h⟩ := ih { d with model := sm.setReal d.model (refOf d n) v.headI }
      exact ⟨m, ld, h.trans (by rfl)⟩
    | some f =>
      cases hv : f t with
      | none =>
        simp only [set_model_inputs, hf, hv]
        exact ih d
      | some value =>
        cases st with
        | false =>
          simp only [set_model_inputs, hf, hv, Bool.false_eq_true, if_false]
          obtain ⟨m, ld, h⟩ := ih { d with model := sm.setReal d.model (refOf d n) value }
          exact ⟨m, ld, h.trans (by rfl)⟩
        | true =>
          simp only [set_model_inputs, hf, hv, if_true]
          obtain ⟨m, ld, h⟩ := ih
            { d with
              local_data := alist_set d.local_data n [value],
              model := sm.setReal d.model (refOf d n) value }
          exact ⟨m, ld, h.trans (by rfl)⟩

theorem dwsf_loop_shape {σ : Type} (sm : SlaveModel σ) (fns : List (String × (ℚ → Option ℚ)))
    (d : Disc σ) (t : ℚ) :
    ∃ m ld, dwsf_loop sm d fns t = { d with model := m, local_data := ld } := by
  induction fns generalizing d with
  | nil => exact ⟨d.model, d.local_data, rfl⟩
  | cons p rest ih =>
    obtain ⟨n, f⟩ := p
    cases hv : f t with
    | none =>
      simp only [dwsf_loop, hv]
      exact ih d
    | some value =>
      simp only [dwsf_loop, hv]
      obtain ⟨m, ld, h⟩ := ih
        { d with
          model := sm.setReal d.model (refOf d n) value,
          local_data :=
            alist_set d.local_data n (((alist_get d.local_data n).getD []) ++ [value]) }
      exact ⟨m, ld, h.trans (by rfl)⟩

theorem do_when_step_finished_shape {σ : Type} (sm : SlaveModel σ) (d : Disc σ) (t : ℚ) :
    ∃ m ld, do_when_step_finished sm d t = { d with model := m, local_data := ld } :=
  dwsf_loop_shape sm d.names_to_time_functions d t

theorem sim_loop_shape {σ : Type} (sm : SlaveModel σ) (pts : List ℚ) (d : Disc σ) (prev : ℚ) :
    ∃ m ld, (sim_loop sm d prev pts).1 = { d with model := m, local_data := ld } := by
  induction pts generalizing d prev with
  | nil => exact ⟨d.model, d.local_data, rfl⟩
  | cons t rest ih =>
    simp only [sim_loop]
    obtain ⟨m1, ld1, h1⟩ :=
      do_when_step_finished_shape sm { d with model := sm.doStep d.model prev (t - prev) } t
    rw [h1]
    obtain ⟨m, ld, h⟩ := ih { d with model := m1, local_data := ld1 } t
    exact ⟨m, ld, by simpa using h⟩

theorem simulate_fmu_shape {σ : Type} (sm : SlaveModel σ) (d : Disc σ) (pts : List ℚ) :
    ∃ m ld, (simulate_fmu sm d pts).1 = { d with model := m, local_data := ld } :=
  sim_loop_shape sm pts d d.current_time

theorem run_one_step_shape {σ : Type} (sm : SlaveModel σ) (d : Disc σ)
    (xs : List (String × List ℚ)) :
    ∃ m ld tt c e, run_one_step sm d xs =
      ({ d with model := m, local_data := ld, time := tt, current_time := c }, e) := by
  obtain ⟨m1, ld1, h1⟩ :=
    set_model_inputs_shape sm xs d (d.current_time + (effectiveSettings d).time_step) true
  simp only [run_one_step, h1, setCurrentTime]
  split_ifs with hgt
  · exact ⟨_, _, _, _, _, rfl⟩
  · exact ⟨_, _, _, _, _, rfl⟩

theorem run_to_final_time_shape {σ : Type} (sm : SlaveModel σ) (d : Disc σ)
    (xs : List (String × List ℚ)) (pts : List ℚ) :
    ∃ m ld tt c lg e, run_to_final_time sm d xs pts =
      ({ d with model := m, local_data := ld, time := tt, current_time := c, log := lg }, e) := by
  cases hst : (effectiveSettings d).simulation_time with
  | none =>
    refine ⟨d.model, d.local_data, d.time, d.current_time, d.log, some FmuError.keyError, ?_⟩
    simp only [run_to_final_time, hst]
  | some simulation_time =>
    by_cases hgt : d.current_time + simulation_time > d.final_time
    · obtain ⟨m2, ld2, h2⟩ := set_model_inputs_shape sm xs
        { d with log := d.log ++ [overshootWarning] } d.current_time false
      obtain ⟨m3, ld3, h3⟩ := simulate_fmu_shape sm
        { d with log := d.log ++ [overshootWarning], model := m2, local_data := ld2 } pts
      simp only [run_to_final_time, hst, if_pos hgt] at h2 h3 ⊢
      simp only [h2, h3, setCurrentTime]
      first
        | (split_ifs with hgt2 <;> exact ⟨_, _, _, _, _, _, rfl⟩)
        | exact ⟨_, _, _, _, _, _, rfl⟩
    · obtain ⟨m2, ld2, h2⟩ := set_model_inputs_shape sm xs d d.current_time false
      obtain ⟨m3, ld3, h3⟩ := simulate_fmu_shape sm
        { d with model := m2, local_data := ld2 } pts
      simp only [run_to_final_time, hst, if_neg hgt] at h2 h3 ⊢
      simp only [h2, h3, setCurrentTime]
      first
        | (split_ifs with hgt2 <;> exact ⟨_, _, _, _, _, _, rfl⟩)
        | exact ⟨_, _, _, _, _, _, rfl⟩

theorem restartBlock_shape {σ : Type} (sm : SlaveModel σ) (s : SimulationSettings)
    (d : Disc σ) :
    ∃ m c, restartBlock sm s d = { d with model := m, current_time := c } := by
  unfold restartBlock
  split_ifs
  · exact ⟨_, _, rfl⟩
  · exact ⟨d.model, d.current_time, rfl⟩

theorem runDispatch_shape {σ : Type} (sm : SlaveModel σ) (d : Disc σ) (pts : List ℚ) :
    ∃ m ld tt c lg e, runDispatch sm d pts =
      ({ d with model := m, local_data := ld, time := tt, current_time := c, log := lg }, e) := by
  simp only [runDispatch]
  split_ifs
  · obtain ⟨m, ld, tt, c, e, h⟩ := run_one_step_shape sm d (getInputData d)
    exact ⟨m, ld, tt, c, d.log, e, h.trans (by rfl)⟩
  · exact run_to_final_time_shape sm d (getInputData d) pts

theorem run_shape {σ : Type} (sm : SlaveModel σ) (d : Disc σ) (pts : List ℚ) :
    ∃ m ld tt c ss lg e, run sm d pts =
      ({ d with
          model := m, local_data := ld, time := tt, current_time := c,
          simulation_settings := ss, log := lg }, e) := by
  simp only [run]
  generalize hd1 : restartBlock sm (effectiveSettings d)
      { d with simulation_settings := some (effectiveSettings d) } = d1
  obtain ⟨m1, c1, h1⟩ := restartBlock_shape sm (effectiveSettings d)
      { d with simulation_settings := some (effectiveSettings d) }
  rw [hd1] at h1
  split_ifs with herr
  · exact ⟨m1, d.local_data, d.time, c1, some (effectiveSettings d), d.log,
      some (FmuError.alreadyAtFinalTime d1.current_time), by rw [h1]⟩
  · rcases hdisp : runDispatch sm d1 pts with ⟨d2, e2⟩
    obtain ⟨m2, ld2, tt2, c2, lg2, e2', hsh⟩ := runDispatch_shape sm d1 pts
    rw [hdisp] at hsh
    obtain ⟨hd2, he2⟩ := Prod.mk.injEq .. ▸ hsh
    cases e2 with
    | none =>
      refine ⟨m2, ld2, tt2, c2, none, lg2, none, ?_⟩
      simp only [runFinish]
      rw [hd2, h1]
    | some e =>
      refine ⟨m2, ld2, tt2, c2, some (effectiveSettings d), lg2, some e, ?_⟩
      simp only [runFinish]
      rw [hd2, h1]

theorem executeDisc_shape {σ : Type} (sm : SlaveModel σ) (d : Disc σ)
    (inp : List (String × InputValue)) (pts : List ℚ) :
    ∃ fns m ld tt c ss lg e, executeDisc sm d inp pts =
      ({ d with
          names_to_time_functions := fns, model := m, local_data := ld, time := tt,
          current_time := c, simulation_settings := ss, log := lg }, e) := by
  simp only [executeDisc]
  cases hconv : convertAll d.current_time (filterInputs d inp) with
  | none => exact ⟨_, _, _, _, _, _, _, _, rfl⟩
  | some full_arrays =>
    dsimp only
    obtain ⟨m, ld, tt, c, ss, lg, e, h⟩ := run_shape sm
      { d with
        names_to_time_functions := entryTimeFunctions (filterInputs d inp),
        local_data := storeAll d.local_data full_arrays } pts
    exact ⟨_, m, ld, tt, c, ss, lg, e, h.trans (by rfl)⟩

/-! ### Characterizations of the engine writes -/

theorem set_model_inputs_model {σ : Type} (sm : SlaveModel σ) (xs : List (String × List ℚ))
    (d : Disc σ) (t : ℚ) (st : Bool) :
    (set_model_inputs sm d xs t st).model =
      applyWrites sm d.names_to_references
        (written_values d.names_to_time_functions xs t) d.model := by
  induction xs generalizing d with
  | nil => simp [set_model_inputs, written_values, applyWrites]
  | cons p rest ih =>
    obtain ⟨n, v⟩ := p
    cases hf : alist_get d.names_to_time_functions n with
    | none =>
      simp only [set_model_inputs, hf, written_values, List.filterMap_cons]
      rw [ih]
      simp [applyWrites, written_values, refOf, hf]
    | some f =>
      cases hv : f t with
      | none =>
        simp only [set_model_inputs, hf, hv, written_values, List.filterMap_cons]
        rw [ih]
        simp [written_values, hf, hv]
      | some value =>
        cases st with
        | false =>
          simp only [set_model_inputs, hf, hv, Bool.false_eq_true, if_false, written_values,
            List.filterMap_cons]
          rw [ih]
          simp [applyWrites, written_values, refOf, hf, hv]
        | true =>
          simp only [set_model_inputs, hf, hv, if_true, written_values, List.filterMap_cons]
          rw [ih]
          simp [applyWrites, written_values, refOf, hf, hv]

theorem set_model_inputs_local_false {σ : Type} (sm : SlaveModel σ)
    (xs : List (String × List ℚ)) (d : Disc σ) (t : ℚ) :
    (set_model_inputs sm d xs t false).local_data = d.local_data := by
  induction xs generalizing d with
  | nil => rfl
  | cons p rest ih =>
    obtain ⟨n, v⟩ := p
    cases hf : alist_get d.names_to_time_functions n with
    | none =>
      simp only [set_model_inputs, hf]
      rw [ih]
    | some f =>
      cases hv : f t with
      | none =>
        simp only [set_model_inputs, hf, hv]
        exact ih d
      | some value =>
        simp only [set_model_inputs, hf, hv, Bool.false_eq_true, if_false]
        rw [ih]

theorem set_model_inputs_local_true {σ : Type} (sm : SlaveModel σ)
    (xs : List (String × List ℚ)) (d : Disc σ) (t : ℚ) :
    (set_model_inputs sm d xs t true).local_data =
      storeAll d.local_data (stored_inputs d.names_to_time_functions xs t) := by
  induction xs generalizing d with
  | nil => rfl
  | cons p rest ih =>
    obtain ⟨n, v⟩ := p
    cases hf : alist_get d.names_to_time_functions n with
    | none =>
      simp only [set_model_inputs, hf, stored_inputs, List.filterMap_cons]
      rw [ih]
      simp [stored_inputs, hf]
    | some f =>
      cases hv : f t with
      | none =>
        simp only [set_model_inputs, hf, hv, stored_inputs, List.filterMap_cons]
        rw [ih]
        simp [stored_inputs, hf, hv]
      | some value =>
        simp only [set_model_inputs, hf, hv, if_true, stored_inputs, List.filterMap_cons]
        rw [ih]
        simp [stored_inputs, storeAll, hf, hv]

theorem dwsf_loop_model {σ : Type} (sm : SlaveModel σ)
    (fns : List (String × (ℚ → Option ℚ))) (d : Disc σ) (t : ℚ) :
    (dwsf_loop sm d fns t).model =
      applyWrites sm d.names_to_references (step_finished_writes fns t) d.model := by
  induction fns generalizing d with
  | nil => simp [dwsf_loop, step_finished_writes, applyWrites]
  | cons p rest ih =>
    obtain ⟨n, f⟩ := p
    cases hv : f t with
    | none =>
      simp only [dwsf_loop, hv, step_finished_writes, List.filterMap_cons]
      rw [ih]
      simp [step_finished_writes, hv]
    | some value =>
      simp only [dwsf_loop, hv, step_finished_writes, List.filterMap_cons]
      rw [ih]
      simp [applyWrites, step_finished_writes, refOf, hv]

theorem dwsf_loop_local_not_fn {σ : Type} (sm : SlaveModel σ)
    (fns : List (String × (ℚ → Option ℚ))) (d : Disc σ) (t : ℚ) (n : String)
    (h : n ∉ alist_keys fns) :
    alist_get (dwsf_loop sm d fns t).local_data n = alist_get d.local_data n := by
  induction fns generalizing d with
  | nil => rfl
  | cons p rest ih =>
    obtain ⟨n0, f0⟩ := p
    simp only [alist_keys, List.map_cons, List.mem_cons] at h
    push_neg at h
    cases hv : f0 t with
    | none =>
      simp only [dwsf_loop, hv]
      exact ih d (by simpa [alist_keys] using h.2)
    | some value =>
      simp only [dwsf_loop, hv]
      rw [ih _ (by simpa [alist_keys] using h.2)]
      exact alist_get_set_ne _ _ _ _ h.1

theorem dwsf_loop_local_failed {σ : Type} (sm : SlaveModel σ)
    (fns : List (String × (ℚ → Option ℚ))) (d : Disc σ) (t : ℚ) (n : String)
    (f : ℚ → Option ℚ) (hnd : (alist_keys fns).Nodup) (hmem : (n, f) ∈ fns)
    (hfail : f t = none) :
    alist_get (dwsf_loop sm d fns t).local_data n = alist_get d.local_data n := by
  induction fns generalizing d with
  | nil => rfl
  | cons p rest ih =>
    obtain ⟨n0, f0⟩ := p
    simp only [alist_keys, List.map_cons, List.nodup_cons] at hnd
    rcases List.mem_cons.mp hmem with heq | hrest
    · obtain ⟨hn, hf⟩ := Prod.mk.injEq .. ▸ heq
      subst hn
      subst hf
      simp only [dwsf_loop, hfail]
      exact dwsf_loop_local_not_fn sm rest d t n (by simpa [alist_keys] using hnd.1)
    · have hne : n ≠ n0 := by
        intro hc
        subst hc
        exact hnd.1 (by simpa [alist_keys] using List.mem_map_of_mem Prod.fst hrest)
      cases hv : f0 t with
      | none =>
        simp only [dwsf_loop, hv]
        exact ih d hnd.2 hrest
      | some value =>
        simp only [dwsf_loop, hv]
        rw [ih _ hnd.2 hrest]
        exact alist_get_set_ne _ _ _ _ hne

theorem sim_loop_core {σ : Type} (sm : SlaveModel σ) (pts : List ℚ) (d : Disc σ) (prev : ℚ) :
    (sim_loop sm d prev pts).1.model =
        (sim_core sm d.names_to_time_functions d.names_to_references d.output_names
          d.model prev pts).1 ∧
      (sim_loop sm d prev pts).2 =
        (sim_core sm d.names_to_time_functions d.names_to_references d.output_names
          d.model prev pts).2 := by
  induction pts generalizing d prev with
  | nil => exact ⟨rfl, rfl⟩
  | cons t rest ih =>
    have hmodel : (do_when_step_finished sm
        { d with model := sm.doStep d.model prev (t - prev) } t).model =
        applyWrites sm d.names_to_references
          (step_finished_writes d.names_to_time_functions t)
          (sm.doStep d.model prev (t - prev)) := by
      unfold do_when_step_finished
      exact dwsf_loop_model sm _ _ t
    obtain ⟨m2, ld2, h2⟩ := do_when_step_finished_shape sm
      { d with model := sm.doStep d.model prev (t - prev) } t
    have hm2 : m2 = applyWrites sm d.names_to_references
        (step_finished_writes d.names_to_time_functions t)
        (sm.doStep d.model prev (t - prev)) := by
      have := hmodel
      rw [h2] at this
      exact this
    constructor
    · simp only [sim_loop, sim_core, h2, hm2]
      exact (ih _ _).1
    · simp only [sim_loop, sim_core, h2, hm2]
      refine congrArg₂ _ ?_ ?_
      · simp [refOf]
      · exact (ih _ _).2

theorem outputColumnsAux_keys (rows : List (List ℚ)) (outs : List String) (i : Nat) :
    alist_keys (outputColumnsAux rows outs i) = outs := by
  induction outs generalizing i with
  | nil => rfl
  | cons n rest ih =>
    have hr := ih (i + 1)
    simp only [alist_keys] at hr
    simp [outputColumnsAux, alist_keys, hr]

theorem outputColumns_keys (outs : List String) (rt : List ℚ) (rows : List (List ℚ)) :
    alist_keys (outputColumns outs rt rows) = "time" :: outs := by
  have hr := outputColumnsAux_keys rows outs 0
  simp only [alist_keys] at hr
  simp [outputColumns, alist_keys, hr]

theorem convertAll_keys (t : ℚ) (full : List (String × InputValue))
    (res : List (String × List ℚ)) (h : convertAll t full = some res) :
    alist_keys res = alist_keys full := by
  induction full generalizing res with
  | nil =>
    simp only [convertAll, Option.some.injEq] at h
    rw [← h]
    rfl
  | cons p rest ih =>
    obtain ⟨n, v⟩ := p
    simp only [convertAll] at h
    cases hc : convertEntryValue t v with
    | none => rw [hc] at h; exact absurd h (by simp)
    | some a =>
      rw [hc] at h
      cases hr : convertAll t rest with
      | none => rw [hr] at h; exact absurd h (by simp)
      | some r =>
        rw [hr] at h
        simp only [Option.some.injEq] at h
        rw [← h]
        have hk := ih r hr
        simp only [alist_keys] at hk
        simp [alist_keys, hk]

theorem convertAll_get (t : ℚ) (full : List (String × InputValue))
    (res : List (String × List ℚ)) (h : convertAll t full = some res) (k : String) :
    alist_get res k = (alist_get full k).bind (convertEntryValue t) := by
  induction full generalizing res with
  | nil =>
    simp only [convertAll, Option.some.injEq] at h
    rw [← h]
    simp [alist_get]
  | cons p rest ih =>
    obtain ⟨n, v⟩ := p
    simp only [convertAll] at h
    cases hc : convertEntryValue t v with
    | none => rw [hc] at h; exact absurd h (by simp)
    | some a =>
      rw [hc] at h
      cases hr : convertAll t rest with
      | none => rw [hr] at h; exact absurd h (by simp)
      | some r =>
        rw [hr] at h
        simp only [Option.some.injEq] at h
        rw [← h]
        by_cases hn : n = k
        · simp [alist_get, hn, hc]
        · simp only [alist_get, if_neg hn]
          exact ih r hr

theorem entryTimeFunctions_keys_sub (full : List (String × InputValue)) (n : String)
    (h : n ∈ alist_keys (entryTimeFunctions full)) : n ∈ alist_keys full := by
  induction full with
  | nil => simpa [entryTimeFunctions, alist_keys] using h
  | cons p rest ih =>
    obtain ⟨n0, v⟩ := p
    cases v with
    | arr a =>
      simp only [entryTimeFunctions] at h
      exact (List.mem_cons).mpr (Or.inr (ih h))
    | series ts =>
      simp only [entryTimeFunctions, alist_keys, List.map_cons, List.mem_cons] at h ⊢
      exact h.imp id ih
    | func f =>
      simp only [entryTimeFunctions, alist_keys, List.map_cons, List.mem_cons] at h ⊢
      exact h.imp id ih

/-! ### The hold semantics of a time series -/

theorem mem_of_getLast?_eq {α : Type} {l : List α} {a : α} (h : l.getLast? = some a) :
    a ∈ l := by
  obtain ⟨hne, heq⟩ := List.mem_getLast?_eq_getLast (show a ∈ l.getLast? by simp [h])
  rw [heq]
  exact List.getLast_mem hne

theorem holdValue_takeWhile (l : List (ℚ × ℚ)) (t : ℚ) (acc : ℚ) :
    holdValue l t acc =
      ((l.takeWhile (fun p => decide (p.1 ≤ t))).getLast?).elim acc Prod.snd := by
  induction l generalizing acc with
  | nil => rfl
  | cons p rest ih =>
    obtain ⟨t0, v0⟩ := p
    by_cases h : t0 ≤ t
    · simp only [holdValue, if_pos h, List.takeWhile_cons, decide_eq_true h, if_true]
      rw [ih v0]
      cases hl : rest.takeWhile (fun p => decide (p.1 ≤ t)) with
      | nil => simp
      | cons q qs =>
        rw [List.getLast?_cons_cons,
          List.getLast?_eq_getLast_of_ne_nil (l := q :: qs) (by simp)]
        simp
    · rw [show holdValue ((t0, v0) :: rest) t acc =
          if t0 ≤ t then holdValue rest t v0 else acc from rfl,
        if_neg h, List.takeWhile_cons, decide_eq_false h]
      rfl

theorem filter_eq_takeWhile_sorted (l : List (ℚ × ℚ)) (t : ℚ)
    (h : (l.map Prod.fst).Pairwise (· < ·)) :
    l.filter (fun p => decide (p.1 ≤ t)) = l.takeWhile (fun p => decide (p.1 ≤ t)) := by
  induction l with
  | nil => rfl
  | cons p rest ih =>
    simp only [List.map_cons, List.pairwise_cons] at h
    by_cases hp : p.1 ≤ t
    · rw [List.filter_cons, List.takeWhile_cons, decide_eq_true hp]
      show p :: List.filter (fun p => decide (p.1 ≤ t)) rest =
        p :: List.takeWhile (fun p => decide (p.1 ≤ t)) rest
      rw [ih h.2]
    · rw [List.filter_cons, List.takeWhile_cons, decide_eq_false hp]
      show List.filter (fun p => decide (p.1 ≤ t)) rest = []
      refine List.filter_eq_nil_iff.mpr ?_
      intro q hq
      have hlt : p.1 < q.1 := h.1 q.1 (List.mem_map_of_mem Prod.fst hq)
      simp only [decide_eq_true_eq]
      intro hle
      exact hp (le_of_lt (lt_of_lt_of_le hlt hle))

theorem maxKeyPair_sorted (l : List (ℚ × ℚ))
    (h : (l.map Prod.fst).Pairwise (· < ·)) : maxKeyPair l = l.getLast? := by
  induction l with
  | nil => rfl
  | cons p rest ih =>
    simp only [List.map_cons, List.pairwise_cons] at h
    cases rest with
    | nil => rfl
    | cons q qs =>
      rw [List.getLast?_cons_cons, ← ih h.2]
      cases hm : maxKeyPair (q :: qs) with
      | none =>
        rw [ih h.2] at hm
        exact absurd (List.getLast?_eq_none_iff.mp hm) (by simp)
      | some r =>
        have hrmem : r ∈ q :: qs := by
          rw [ih h.2] at hm
          exact mem_of_getLast?_eq hm
        have hlt : p.1 < r.1 := h.1 r.1 (List.mem_map_of_mem Prod.fst hrmem)
        show (match maxKeyPair (q :: qs) with
          | none => some p
          | some q => if q.1 < p.1 then some p else some q) = some r
        rw [hm]
        simp [not_lt_of_gt hlt]

/-- The executable stairs function `TimeSeries.compute` agrees with the hold
semantics in the words of the spec, for a well-formed series: the value at the
greatest stored time point not exceeding the query, failure below the first
time point. -/
theorem compute_eq_hold_query (ts : TimeSeries) (hsort : ts.time.Pairwise (· < ·))
    (hlen : ts.time.length = ts.observable.length) (t : ℚ) :
    ts.compute t = ts.hold_query t := by
  obtain ⟨times, obs⟩ := ts
  dsimp only at hsort hlen
  dsimp only [TimeSeries.compute, TimeSeries.hold_query]
  have hfst : (times.zip obs).map Prod.fst = times :=
    List.map_fst_zip times obs (le_of_eq hlen)
  have hzsort : ((times.zip obs).map Prod.fst).Pairwise (· < ·) := by
    rw [hfst]; exact hsort
  rw [filter_eq_takeWhile_sorted _ t hzsort,
    maxKeyPair_sorted _
      (List.Pairwise.sublist ((List.takeWhile_sublist _).map Prod.fst) hzsort)]
  cases times with
  | nil => cases obs <;> simp
  | cons t0 trest =>
    cases obs with
    | nil => simp
    | cons v0 vrest =>
      dsimp only
      by_cases hlt : t < t0
      · rw [if_pos hlt]
        simp [List.zip_cons_cons, List.takeWhile_cons, decide_eq_false (not_le.mpr hlt)]
      · rw [if_neg hlt, holdValue_takeWhile]
        simp only [List.zip_cons_cons, List.takeWhile_cons,
          decide_eq_true (not_lt.mp hlt), if_true]
        rw [List.getLast?_eq_getLast_of_ne_nil (by simp)]
        simp

/-! ### Outcome characterizations of the two simulation paths -/

theorem run_one_step_char {σ : Type} (sm : SlaveModel σ) (d : Disc σ)
    (xs : List (String × List ℚ)) :
    (d.current_time + (effectiveSettings d).time_step > d.final_time ∧
        (run_one_step sm d xs).1.current_time = d.current_time ∧
        (run_one_step sm d xs).2 = some (FmuError.currentExceedsFinal
          (d.current_time + (effectiveSettings d).time_step) d.final_time)) ∨
      (d.current_time + (effectiveSettings d).time_step ≤ d.final_time ∧
        (run_one_step sm d xs).1.current_time =
          d.current_time + (effectiveSettings d).time_step ∧
        (run_one_step sm d xs).2 = none ∧
        (run_one_step sm d xs).1.time =
          some [d.current_time + (effectiveSettings d).time_step]) := by
  obtain ⟨m1, ld1, h1⟩ :=
    set_model_inputs_shape sm xs d (d.current_time + (effectiveSettings d).time_step) true
  simp only [run_one_step, h1, setCurrentTime]
  split_ifs with hgt
  · exact Or.inl ⟨hgt, rfl, rfl⟩
  · exact Or.inr ⟨not_lt.mp hgt, rfl, rfl, rfl⟩

theorem run_to_final_time_char {σ : Type} (sm : SlaveModel σ) (d : Disc σ)
    (xs : List (String × List ℚ)) (pts : List ℚ) (st : ℚ)
    (hst : (effectiveSettings d).simulation_time = some st) :
    (run_to_final_time sm d xs pts).2 = none ∧
      (run_to_final_time sm d xs pts).1.current_time =
        (if d.current_time + st > d.final_time then d.final_time
          else d.current_time + st) ∧
      (run_to_final_time sm d xs pts).1.log =
        (if d.current_time + st > d.final_time then d.log ++ [overshootWarning]
          else d.log) ∧
      (run_to_final_time sm d xs pts).1.time = some pts := by
  by_cases hgt : d.current_time + st > d.final_time
  · obtain ⟨m2, ld2, h2⟩ := set_model_inputs_shape sm xs
      { d with log := d.log ++ [overshootWarning] } d.current_time false
    obtain ⟨m3, ld3, h3⟩ := simulate_fmu_shape sm
      { d with log := d.log ++ [overshootWarning], model := m2, local_data := ld2 } pts
    simp only [run_to_final_time, hst, if_pos hgt]
    simp only [h2, h3, setCurrentTime]
    rw [if_neg (lt_irrefl d.final_time)]
    exact ⟨rfl, rfl, rfl, rfl⟩
  · obtain ⟨m2, ld2, h2⟩ := set_model_inputs_shape sm xs d d.current_time false
    obtain ⟨m3, ld3, h3⟩ := simulate_fmu_shape sm
      { d with model := m2, local_data := ld2 } pts
    simp only [run_to_final_time, hst, if_neg hgt]
    simp only [h2, h3, setCurrentTime]
    rw [if_neg hgt]
    exact ⟨rfl, rfl, rfl, rfl⟩

/-- The dispatched simulation never raises the already-at-final-time error:
its own errors are `currentExceedsFinal` and `keyError` only. -/
theorem runDispatch_no_already {σ : Type} (sm : SlaveModel σ) (d : Disc σ)
    (pts : List ℚ) (t : ℚ) :
    (runDispatch sm d pts).2 ≠ some (FmuError.alreadyAtFinalTime t) := by
  simp only [runDispatch]
  split_ifs
  · rcases run_one_step_char sm d (getInputData d) with ⟨_, _, he⟩ | ⟨_, _, he, _⟩ <;>
      simp [he]
  · cases hst : (effectiveSettings d).simulation_time with
    | none => simp [run_to_final_time, hst]
    | some st =>
      obtain ⟨he, _, _, _⟩ := run_to_final_time_char sm d (getInputData d) pts st hst
      simp [he]

/-- The dispatched simulation never raises the `ValueError` of the entry
conversion: its own errors are `currentExceedsFinal` and `keyError` only. -/
theorem runDispatch_no_value {σ : Type} (sm : SlaveModel σ) (d : Disc σ) (pts : List ℚ) :
    (runDispatch sm d pts).2 ≠ some FmuError.valueError := by
  simp only [runDispatch]
  split_ifs
  · rcases run_one_step_char sm d (getInputData d) with ⟨_, _, he⟩ | ⟨_, _, he, _⟩ <;>
      simp [he]
  · cases hst : (effectiveSettings d).simulation_time with
    | none => simp [run_to_final_time, hst]
    | some st =>
      obtain ⟨he, _, _, _⟩ := run_to_final_time_char sm d (getInputData d) pts st hst
      simp [he]

/-- `_run` never raises the entry `ValueError`: the errors it can surface are
the final-time refusals and the missing-settings key. -/
theorem run_no_value_error {σ : Type} (sm : SlaveModel σ) (d : Disc σ) (pts : List ℚ) :
    (run sm d pts).2 ≠ some FmuError.valueError := by
  simp only [run]
  split_ifs
  · simp
  · rcases hdisp : runDispatch sm (restartBlock sm (effectiveSettings d)
        { d with simulation_settings := some (effectiveSettings d) }) pts with ⟨d2, e2⟩
    have hnv := runDispatch_no_value sm (restartBlock sm (effectiveSettings d)
        { d with simulation_settings := some (effectiveSettings d) }) pts
    rw [hdisp] at hnv
    cases e2 with
    | none => simp [runFinish]
    | some e => simpa [runFinish] using hnv

/-- On success, `_run` clears the one-shot simulation settings. -/
theorem run_success_settings {σ : Type} (sm : SlaveModel σ) (d : Disc σ) (pts : List ℚ)
    (h : (run sm d pts).2 = none) : (run sm d pts).1.simulation_settings = none := by
  revert h
  simp only [run]
  generalize hd1 : restartBlock sm (effectiveSettings d)
      { d with simulation_settings := some (effectiveSettings d) } = d1
  split_ifs with hcond
  · intro h
    exact absurd h (by simp)
  · rcases hdisp : runDispatch sm d1 pts with ⟨d2, e2⟩
    cases e2 with
    | none =>
      intro h
      rfl
    | some e =>
      intro h
      exact absurd h (by simp [runFinish])

/-- `_run` never modifies the default simulation settings. -/
theorem run_defaults {σ : Type} (sm : SlaveModel σ) (d : Disc σ) (pts : List ℚ) :
    (run sm d pts).1.default_simulation_settings = d.default_simulation_settings := by
  obtain ⟨m, ld, tt, c, ss, lg, e, h⟩ := run_shape sm d pts
  rw [h]

/-- Without an effective restart request, the restart handling can only leave
the current time unchanged. -/
theorem restartBlock_current_norestart {σ : Type} (sm : SlaveModel σ)
    (s : SimulationSettings) (d : Disc σ) (h : s.restart = false) :
    (restartBlock sm s d).current_time = d.current_time := by
  rw [restartBlock]
  split_ifs with hc
  · rcases hc with hc | hc
    · rw [h] at hc
      exact absurd hc (by simp)
    · exact hc.symm
  · rfl

/-- The full outcome of `__run_one_step` when the arrival time fits in the
budget: no error, the current time advanced by one step, the single time row
stored, the slave advanced by one `do_step` over the inputs written at the
arrival time. -/
theorem run_one_step_full {σ : Type} (sm : SlaveModel σ) (d : Disc σ)
    (xs : List (String × List ℚ)) (htime : "time" ∉ d.output_names)
    (hfit : d.current_time + (effectiveSettings d).time_step ≤ d.final_time) :
    (run_one_step sm d xs).2 = none ∧
    (run_one_step sm d xs).1.current_time =
      d.current_time + (effectiveSettings d).time_step ∧
    (run_one_step sm d xs).1.time =
      some [d.current_time + (effectiveSettings d).time_step] ∧
    (run_one_step sm d xs).1.model = sm.doStep
      (applyWrites sm d.names_to_references
        (written_values d.names_to_time_functions xs
          (d.current_time + (effectiveSettings d).time_step)) d.model)
      d.current_time (effectiveSettings d).time_step ∧
    (run_one_step sm d xs).1.simulation_settings = d.simulation_settings ∧
    alist_get (run_one_step sm d xs).1.local_data "time" =
      some [d.current_time + (effectiveSettings d).time_step] := by
  obtain ⟨m1, ld1, h1⟩ := set_model_inputs_shape sm xs d
    (d.current_time + (effectiveSettings d).time_step) true
  have hm1 : m1 = applyWrites sm d.names_to_references
      (written_values d.names_to_time_functions xs
        (d.current_time + (effectiveSettings d).time_step)) d.model := by
    have h2 := set_model_inputs_model sm xs d
      (d.current_time + (effectiveSettings d).time_step) true
    rw [h1] at h2
    exact h2
  simp only [run_one_step, h1, setCurrentTime]
  split_ifs with hgt
  · exact absurd hgt (not_lt.mpr hfit)
  · refine ⟨rfl, rfl, rfl, ?_, rfl, ?_⟩
    · rw [hm1]
    · exact storeAll_cons_get_head _ _ _ _
        (by simpa [alist_keys, List.map_map, Function.comp] using htime)

/-- The outcome of `_run` under `do_step` when no restart is requested, the
state is not already at the final time and the arrival time fits: no error,
one advance by the time step, the single time row. -/
theorem run_do_step_outcome {σ : Type} (sm : SlaveModel σ) (d : Disc σ) (pts : List ℚ)
    (hds : d.do_step = true) (hnr : (effectiveSettings d).restart = false)
    (hnal : ¬(d.initial_time < d.current_time ∧ d.current_time = d.final_time))
    (htime : "time" ∉ d.output_names)
    (hfit : d.current_time + (effectiveSettings d).time_step ≤ d.final_time) :
    (run sm d pts).2 = none ∧
    (run sm d pts).1.current_time =
      d.current_time + (effectiveSettings d).time_step ∧
    (run sm d pts).1.time =
      some [d.current_time + (effectiveSettings d).time_step] := by
  simp only [run]
  generalize hd1 : restartBlock sm (effectiveSettings d)
      { d with simulation_settings := some (effectiveSettings d) } = d1
  obtain ⟨m1, c1, h1⟩ := restartBlock_shape sm (effectiveSettings d)
      { d with simulation_settings := some (effectiveSettings d) }
  rw [hd1] at h1
  have hcur1 : d1.current_time = d.current_time := by
    have h2 := restartBlock_current_norestart sm (effectiveSettings d)
      { d with simulation_settings := some (effectiveSettings d) } hnr
    rw [hd1] at h2
    exact h2
  have hinit1 : d1.initial_time = d.initial_time := by rw [h1]
  have hfin1 : d1.final_time = d.final_time := by rw [h1]
  have heff1 : effectiveSettings d1 = effectiveSettings d := by
    rw [effectiveSettings, show d1.simulation_settings = some (effectiveSettings d)
      from by rw [h1]]
    rfl
  have hds1 : d1.do_step = true := by
    rw [show d1.do_step = d.do_step from by rw [h1]]
    exact hds
  have htime1 : "time" ∉ d1.output_names := by
    rw [show d1.output_names = d.output_names from by rw [h1]]
    exact htime
  have hfit1 : d1.current_time + (effectiveSettings d1).time_step ≤ d1.final_time := by
    rw [hcur1, heff1, hfin1]
    exact hfit
  split_ifs with hal
  · refine absurd ?_ hnal
    constructor
    · rw [← hinit1, ← hcur1]
      exact hal.1
    · rw [← hcur1, ← hfin1]
      exact hal.2
  · simp only [runDispatch]
    rw [if_pos hds1]
    have hful := run_one_step_full sm d1 (getInputData d1) htime1 hfit1
    rcases hros : run_one_step sm d1 (getInputData d1) with ⟨r1, e1⟩
    rw [hros] at hful
    obtain ⟨he, hcur, htm, _, _, _⟩ := hful
    obtain rfl : e1 = none := he
    rw [hcur1, heff1] at hcur htm
    simp only [runFinish]
    exact ⟨by trivial, hcur, htm⟩

/-- `_run` raises `AlreadyAtFinalTime` from a state at the final time past the
initial time when no restart is requested. -/
theorem run_already_error {σ : Type} (sm : SlaveModel σ) (d : Disc σ) (pts : List ℚ)
    (hnr : (effectiveSettings d).restart = false)
    (hal : d.initial_time < d.current_time ∧ d.current_time = d.final_time) :
    (run sm d pts).2 = some (FmuError.alreadyAtFinalTime d.current_time) := by
  simp only [run]
  generalize hd1 : restartBlock sm (effectiveSettings d)
      { d with simulation_settings := some (effectiveSettings d) } = d1
  obtain ⟨m1, c1, h1⟩ := restartBlock_shape sm (effectiveSettings d)
      { d with simulation_settings := some (effectiveSettings d) }
  rw [hd1] at h1
  have hcur1 : d1.current_time = d.current_time := by
    have h2 := restartBlock_current_norestart sm (effectiveSettings d)
      { d with simulation_settings := some (effectiveSettings d) } hnr
    rw [hd1] at h2
    exact h2
  split_ifs with hcond
  · rw [hcur1]
  · exfalso
    apply hcond
    constructor
    · rw [hcur1, show d1.initial_time = d.initial_time from by rw [h1]]
      exact hal.1
    · rw [hcur1, show d1.final_time = d.final_time from by rw [h1]]
      exact hal.2

/-- The general do-step advance behind C3: one step forward, the inputs
evaluated at the arrival time and written to the slave before the step, the
single time row stored. -/
theorem run_do_step_advance {σ : Type} (sm : SlaveModel σ) (d : Disc σ) (pts : List ℚ)
    (hds : d.do_step = true) (hnr : (effectiveSettings d).restart = false)
    (hne : d.current_time ≠ d.initial_time) (hcf : d.current_time ≠ d.final_time)
    (htime : "time" ∉ d.output_names)
    (hfit : d.current_time + (effectiveSettings d).time_step ≤ d.final_time) :
    (run sm d pts).2 = none ∧
    (run sm d pts).1.current_time =
      d.current_time + (effectiveSettings d).time_step ∧
    (run sm d pts).1.time =
      some [d.current_time + (effectiveSettings d).time_step] ∧
    (run sm d pts).1.model = sm.doStep
      (applyWrites sm d.names_to_references
        (written_values d.names_to_time_functions (getInputData d)
          (d.current_time + (effectiveSettings d).time_step)) d.model)
      d.current_time (effectiveSettings d).time_step ∧
    alist_get (run sm d pts).1.local_data "time" =
      some [d.current_time + (effectiveSettings d).time_step] := by
  have hrb : restartBlock sm (effectiveSettings d)
      { d with simulation_settings := some (effectiveSettings d) } =
      { d with simulation_settings := some (effectiveSettings d) } := by
    rw [restartBlock]
    split_ifs with hcon
    · rcases hcon with hcon | hcon
      · rw [hnr] at hcon
        exact Bool.noConfusion hcon
      · exact absurd hcon hne
    · rfl
  have hful := run_one_step_full sm
    ({ d with simulation_settings := some (effectiveSettings d) })
    (getInputData ({ d with simulation_settings := some (effectiveSettings d) }))
    htime hfit
  simp only [run, hrb]
  split_ifs with hal
  · exact absurd hal.2 hcf
  · simp only [runDispatch]
    rw [if_pos (show ({ d with simulation_settings := some (effectiveSettings d) } :
      Disc σ).do_step = true from hds)]
    rcases hros : run_one_step sm
      ({ d with simulation_settings := some (effectiveSettings d) })
      (getInputData ({ d with simulation_settings := some (effectiveSettings d) }))
      with ⟨r1, e1⟩
    rw [hros] at hful
    obtain ⟨he, hcur, htm, hmod, hset, hld⟩ := hful
    obtain rfl : e1 = none := he
    simp only [runFinish]
    exact ⟨by trivial, hcur, htm, hmod, hld⟩

/-- One scenario step: from a state of the do-step scenario below the final
time, `execute` succeeds, preserves the scenario fields and advances by 1/5,
recording the arrival time. -/
theorem chain_step (d : Disc Unit) (hinv : ChainInv d)
    (hne2 : d.current_time ≠ 2) (hfit : d.current_time + 1/5 ≤ 2) :
    (executeDisc unitSlave d [] []).2 = none ∧
    ChainInv (executeDisc unitSlave d [] []).1 ∧
    (executeDisc unitSlave d [] []).1.current_time = d.current_time + 1/5 ∧
    (executeDisc unitSlave d [] []).1.time = some [d.current_time + 1/5] := by
  obtain ⟨hi, hf, hds, hdef, hss, hin, hout⟩ := hinv
  have hfi : filterInputs d [] = [] := by
    rw [filterInputs, hin]
    rfl
  have hexec : executeDisc unitSlave d [] [] =
      run unitSlave { d with names_to_time_functions := [] } [] := by
    rw [executeDisc, hfi]
    rfl
  have heff2 : effectiveSettings ({ d with names_to_time_functions := [] } : Disc Unit) = ⟨false, 1/5, none⟩ := by
    show d.simulation_settings.getD d.default_simulation_settings = _
    rw [hss, hdef]
    rfl
  have hds2 : ({ d with names_to_time_functions := [] } : Disc Unit).do_step = true := hds
  have hnr2 : (effectiveSettings ({ d with names_to_time_functions := [] } : Disc Unit)).restart = false := by
    rw [heff2]
  have hnal2 : ¬(({ d with names_to_time_functions := [] } : Disc Unit).initial_time <
      ({ d with names_to_time_functions := [] } : Disc Unit).current_time ∧
      ({ d with names_to_time_functions := [] } : Disc Unit).current_time =
      ({ d with names_to_time_functions := [] } : Disc Unit).final_time) := by
    intro hc
    have h2 : d.current_time = d.final_time := hc.2
    rw [hf] at h2
    exact hne2 h2
  have htime2 : "time" ∉ ({ d with names_to_time_functions := [] } : Disc Unit).output_names := by
    show "time" ∉ d.output_names
    rw [hout]
    decide
  have hfit2 : ({ d with names_to_time_functions := [] } : Disc Unit).current_time +
      (effectiveSettings ({ d with names_to_time_functions := [] } : Disc Unit)).time_step ≤
      ({ d with names_to_time_functions := [] } : Disc Unit).final_time := by
    rw [heff2]
    show d.current_time + 1/5 ≤ d.final_time
    rw [hf]
    exact hfit
  obtain ⟨he, hcur, htm⟩ := run_do_step_outcome unitSlave
    ({ d with names_to_time_functions := [] })
    [] hds2 hnr2 hnal2 htime2 hfit2
  rw [heff2] at hcur htm
  refine ⟨?_, ?_, ?_, ?_⟩
  · rw [hexec]
    exact he
  · obtain ⟨fns, m, ld, tt, c, ss, lg, e, hsh⟩ := executeDisc_shape unitSlave d [] []
    have hssn : (executeDisc unitSlave d [] []).1.simulation_settings = none := by
      rw [hexec]
      exact run_success_settings unitSlave _ [] he
    refine ⟨?_, ?_, ?_, ?_, hssn, ?_, ?_⟩
    · rw [hsh]
      exact hi
    · rw [hsh]
      exact hf
    · rw [hsh]
      exact hds
    · rw [hsh]
      exact hdef
    · rw [hsh]
      exact hin
    · rw [hsh]
      exact hout
  · rw [hexec]
    exact hcur
  · rw [hexec]
    exact htm

/-- The stopping step of the scenario: from the final time, `execute` raises
`AlreadyAtFinalTime`. -/
theorem chain_stop (d : Disc Unit) (hinv : ChainInv d) (hc : d.current_time = 2) :
    (executeDisc unitSlave d [] []).2 = some (FmuError.alreadyAtFinalTime 2) := by
  obtain ⟨hi, hf, hds, hdef, hss, hin, hout⟩ := hinv
  have hfi : filterInputs d [] = [] := by
    rw [filterInputs, hin]
    rfl
  have hexec : executeDisc unitSlave d [] [] =
      run unitSlave { d with names_to_time_functions := [] } [] := by
    rw [executeDisc, hfi]
    rfl
  have heff2 : effectiveSettings ({ d with names_to_time_functions := [] } : Disc Unit) = ⟨false, 1/5, none⟩ := by
    show d.simulation_settings.getD d.default_simulation_settings = _
    rw [hss, hdef]
    rfl
  have hnr2 : (effectiveSettings ({ d with names_to_time_functions := [] } : Disc Unit)).restart = false := by
    rw [heff2]
  have hal2 : ({ d with names_to_time_functions := [] } : Disc Unit).initial_time <
      ({ d with names_to_time_functions := [] } : Disc Unit).current_time ∧
      ({ d with names_to_time_functions := [] } : Disc Unit).current_time =
      ({ d with names_to_time_functions := [] } : Disc Unit).final_time := by
    constructor
    · show d.initial_time < d.current_time
      rw [hi, hc]
      norm_num
    · show d.current_time = d.final_time
      rw [hc, hf]
  have h3 := run_already_error unitSlave
    ({ d with names_to_time_functions := [] }) [] hnr2 hal2
  rw [hexec, h3]
  show some (FmuError.alreadyAtFinalTime d.current_time) = _
  rw [hc]

/-- The concrete do-step scenario: ten `execute` calls from time 0 with step
1/5 record the times 1/5, 2/5, …, 2 without error and the eleventh raises
`AlreadyAtFinalTime`. -/
theorem execChain_facts :
    ((execChain 1).1.time = some [1/5] ∧ (execChain 2).1.time = some [2/5] ∧
      (execChain 3).1.time = some [3/5] ∧ (execChain 4).1.time = some [4/5] ∧
      (execChain 5).1.time = some [1] ∧ (execChain 6).1.time = some [6/5] ∧
      (execChain 7).1.time = some [7/5] ∧ (execChain 8).1.time = some [8/5] ∧
      (execChain 9).1.time = some [9/5] ∧ (execChain 10).1.time = some [2]) ∧
    ((execChain 1).2 = none ∧ (execChain 2).2 = none ∧ (execChain 3).2 = none ∧
      (execChain 4).2 = none ∧ (execChain 5).2 = none ∧ (execChain 6).2 = none ∧
      (execChain 7).2 = none ∧ (execChain 8).2 = none ∧ (execChain 9).2 = none ∧
      (execChain 10).2 = none) ∧
    (execChain 11).2 = some (FmuError.alreadyAtFinalTime 2) := by
  have h0cur : (execChain 0).1.current_time = 0 := rfl
  have h0inv : ChainInv (execChain 0).1 := ⟨rfl, rfl, rfl, rfl, rfl, rfl, rfl⟩
  have h1 := chain_step (execChain 0).1 h0inv
    (by rw [h0cur]; norm_num) (by rw [h0cur]; norm_num)
  rw [show executeDisc unitSlave (execChain 0).1 [] [] = execChain 1 from rfl] at h1
  rw [h0cur] at h1
  have h1inv : ChainInv (execChain 1).1 := h1.2.1
  have h1cur : (execChain 1).1.current_time = 1/5 := by
    rw [h1.2.2.1]
    norm_num
  have h1tm : (execChain 1).1.time = some [1/5] := by
    rw [h1.2.2.2]
    norm_num
  have h2 := chain_step (execChain 1).1 h1inv
    (by rw [h1cur]; norm_num) (by rw [h1cur]; norm_num)
  rw [show executeDisc unitSlave (execChain 1).1 [] [] = execChain 2 from rfl] at h2
  rw [h1cur] at h2
  have h2inv : ChainInv (execChain 2).1 := h2.2.1
  have h2cur : (execChain 2).1.current_time = 2/5 := by
    rw [h2.2.2.1]
    norm_num
  have h2tm : (execChain 2).1.time = some [2/5] := by
    rw [h2.2.2.2]
    norm_num
  have h3 := chain_step (execChain 2).1 h2inv
    (by rw [h2cur]; norm_num) (by rw [h2cur]; norm_num)
  rw [show executeDisc unitSlave (execChain 2).1 [] [] = execChain 3 from rfl] at h3
  rw [h2cur] at h3
  have h3inv : ChainInv (execChain 3).1 := h3.2.1
  have h3cur : (execChain 3).1.current_time = 3/5 := by
    rw [h3.2.2.1]
    norm_num
  have h3tm : (execChain 3).1.time = some [3/5] := by
    rw [h3.2.2.2]
    norm_num
  have h4 := chain_step (execChain 3).1 h3inv
    (by rw [h3cur]; norm_num) (by rw [h3cur]; norm_num)
  rw [show executeDisc unitSlave (execChain 3).1 [] [] = execChain 4 from rfl] at h4
  rw [h3cur] at h4
  have h4inv : ChainInv (execChain 4).1 := h4.2.1
  have h4cur : (execChain 4).1.current_time = 4/5 := by
    rw [h4.2.2.1]
    norm_num
  have h4tm : (execChain 4).1.time = some [4/5] := by
    rw [h4.2.2.2]
    norm_num
  have h5 := chain_step (execChain 4).1 h4inv
    (by rw [h4cur]; norm_num) (by rw [h4cur]; norm_num)
  rw [show executeDisc unitSlave (execChain 4).1 [] [] = execChain 5 from rfl] at h5
  rw [h4cur] at h5
  have h5inv : ChainInv (execChain 5).1 := h5.2.1
  have h5cur : (execChain 5).1.current_time = 1 := by
    rw [h5.2.2.1]
    norm_num
  have h5tm : (execChain 5).1.time = some [1] := by
    rw [h5.2.2.2]
    norm_num
  have h6 := chain_step (execChain 5).1 h5inv
    (by rw [h5cur]; norm_num) (by rw [h5cur]; norm_num)
  rw [show executeDisc unitSlave (execChain 5).1 [] [] = execChain 6 from rfl] at h6
  rw [h5cur] at h6
  have h6inv : ChainInv (execChain 6).1 := h6.2.1
  have h6cur : (execChain 6).1.current_time = 6/5 := by
    rw [h6.2.2.1]
    norm_num
  have h6tm : (execChain 6).1.time = some [6/5] := by
    rw [h6.2.2.2]
    norm_num
  have h7 := chain_step (execChain 6).1 h6inv
    (by rw [h6cur]; norm_num) (by rw [h6cur]; norm_num)
  rw [show executeDisc unitSlave (execChain 6).1 [] [] = execChain 7 from rfl] at h7
  rw [h6cur] at h7
  have h7inv : ChainInv (execChain 7).1 := h7.2.1
  have h7cur : (execChain 7).1.current_time = 7/5 := by
    rw [h7.2.2.1]
    norm_num
  have h7tm : (execChain 7).1.time = some [7/5] := by
    rw [h7.2.2.2]
    norm_num
  have h8 := chain_step (execChain 7).1 h7inv
    (by rw [h7cur]; norm_num) (by rw [h7cur]; norm_num)
  rw [show executeDisc unitSlave (execChain 7).1 [] [] = execChain 8 from rfl] at h8
  rw [h7cur] at h8
  have h8inv : ChainInv (execChain 8).1 := h8.2.1
  have h8cur : (execChain 8).1.current_time = 8/5 := by
    rw [h8.2.2.1]
    norm_num
  have h8tm : (execChain 8).1.time = some [8/5] := by
    rw [h8.2.2.2]
    norm_num
  have h9 := chain_step (execChain 8).1 h8inv
    (by rw [h8cur]; norm_num) (by rw [h8cur]; norm_num)
  rw [show executeDisc unitSlave (execChain 8).1 [] [] = execChain 9 from rfl] at h9
  rw [h8cur] at h9
  have h9inv : ChainInv (execChain 9).1 := h9.2.1
  have h9cur : (execChain 9).1.current_time = 9/5 := by
    rw [h9.2.2.1]
    norm_num
  have h9tm : (execChain 9).1.time = some [9/5] := by
    rw [h9.2.2.2]
    norm_num
  have h10 := chain_step (execChain 9).1 h9inv
    (by rw [h9cur]; norm_num) (by rw [h9cur]; norm_num)
  rw [show executeDisc unitSlave (execChain 9).1 [] [] = execChain 10 from rfl] at h10
  rw [h9cur] at h10
  have h10inv : ChainInv (execChain 10).1 := h10.2.1
  have h10cur : (execChain 10).1.current_time = 2 := by
    rw [h10.2.2.1]
    norm_num
  have h10tm : (execChain 10).1.time = some [2] := by
    rw [h10.2.2.2]
    norm_num
  have h11 := chain_stop (execChain 10).1 h10.2.1 h10cur
  rw [show executeDisc unitSlave (execChain 10).1 [] [] = execChain 11 from rfl] at h11
  exact ⟨⟨h1tm, h2tm, h3tm, h4tm, h5tm, h6tm, h7tm, h8tm, h9tm, h10tm⟩,
    ⟨h1.1, h2.1, h3.1, h4.1, h5.1, h6.1, h7.1, h8.1, h9.1, h10.1⟩, h11⟩

/-- `filterMap` only depends on the values of the function on the list. -/
theorem filterMap_congr_own {α β : Type} (l : List α) (f g : α → Option β)
    (h : ∀ x ∈ l, f x = g x) : l.filterMap f = l.filterMap g := by
  induction l with
  | nil => rfl
  | cons x l ih =>
    rw [List.filterMap_cons, List.filterMap_cons, h x (List.mem_cons_self x l),
      ih (fun b hb => h b (List.mem_cons_of_mem x hb))]

/-- `get_input_data` depends only on the input names and their local data. -/
theorem getInputData_congr {σ τ : Type} (d : Disc σ) (e : Disc τ)
    (hin : d.input_names = e.input_names)
    (hld : ∀ m ∈ d.input_names, alist_get d.local_data m = alist_get e.local_data m) :
    getInputData d = getInputData e := by
  rw [getInputData, getInputData, ← hin]
  exact filterMap_congr_own _ _ _ (fun m hm => by rw [hld m hm])

/-- `_filter_inputs` depends only on the input names and the default inputs. -/
theorem filterInputs_congr {σ τ : Type} (d : Disc σ) (e : Disc τ)
    (hin : d.input_names = e.input_names) (hdef : d.default_inputs = e.default_inputs)
    (inp : List (String × InputValue)) : filterInputs d inp = filterInputs e inp := by
  rw [filterInputs, filterInputs, hin, hdef]

/-- The entry conversion of time-independent values does not depend on the
conversion time. -/
theorem convertAll_indep (t t' : ℚ) (full : List (String × InputValue))
    (h : ∀ p ∈ full, isTimeIndep p.2 = true) :
    convertAll t full = convertAll t' full := by
  induction full with
  | nil => rfl
  | cons p rest ih =>
    obtain ⟨nm, v⟩ := p
    have hv := h (nm, v) (List.mem_cons_self _ _)
    have hrest := fun q hq => h q (List.mem_cons_of_mem _ hq)
    simp only [convertAll]
    rw [ih hrest]
    cases v with
    | arr w => rfl
    | series ts => rfl
    | func f => exact absurd hv Bool.noConfusion

/-- The entry conversion of time-independent values always succeeds. -/
theorem convertAll_total (t : ℚ) (full : List (String × InputValue))
    (h : ∀ p ∈ full, isTimeIndep p.2 = true) :
    ∃ r, convertAll t full = some r := by
  induction full with
  | nil => exact ⟨[], rfl⟩
  | cons p rest ih =>
    obtain ⟨nm, v⟩ := p
    obtain ⟨r, hr⟩ := ih (fun q hq => h q (List.mem_cons_of_mem _ hq))
    have hv := h (nm, v) (List.mem_cons_self _ _)
    cases v with
    | arr w =>
      refine ⟨(nm, w) :: r, ?_⟩
      simp only [convertAll, convertEntryValue, hr]
    | series ts =>
      refine ⟨(nm, [ts.observable.headI]) :: r, ?_⟩
      simp only [convertAll, convertEntryValue, hr]
    | func f => exact absurd hv Bool.noConfusion

/-- The integration loop leaves the local data of a name that carries no time
function untouched. -/
theorem sim_loop_local_not_fn {σ : Type} (sm : SlaveModel σ) (pts : List ℚ) (d : Disc σ)
    (prev : ℚ) (n : String) (h : n ∉ alist_keys d.names_to_time_functions) :
    alist_get (sim_loop sm d prev pts).1.local_data n = alist_get d.local_data n := by
  induction pts generalizing d prev with
  | nil => rfl
  | cons t rest ih =>
    have h2 : alist_get (do_when_step_finished sm
        { d with model := sm.doStep d.model prev (t - prev) } t).local_data n =
        alist_get d.local_data n := by
      rw [do_when_step_finished]
      exact dwsf_loop_local_not_fn sm _ _ t n h
    obtain ⟨m2, ld2, hsh⟩ := do_when_step_finished_shape sm
      { d with model := sm.doStep d.model prev (t - prev) } t
    simp only [sim_loop, hsh]
    rw [ih { d with model := m2, local_data := ld2 } t h]
    rw [hsh] at h2
    exact h2

/-- The external integrator leaves the local data of a name that carries no
time function untouched. -/
theorem simulate_fmu_local_not_fn {σ : Type} (sm : SlaveModel σ) (d : Disc σ)
    (pts : List ℚ) (n : String) (h : n ∉ alist_keys d.names_to_time_functions) :
    alist_get (simulate_fmu sm d pts).1.local_data n = alist_get d.local_data n :=
  sim_loop_local_not_fn sm pts d d.current_time n h

/-- The rows recorded by the external integrator, on the slave state alone. -/
theorem simulate_fmu_rows {σ : Type} (sm : SlaveModel σ) (d : Disc σ) (pts : List ℚ) :
    (simulate_fmu sm d pts).2 =
      (sim_core sm d.names_to_time_functions d.names_to_references d.output_names
        d.model d.current_time pts).2 :=
  (sim_loop_core sm pts d d.current_time).2

/-- A run to final time leaves the local data of a name that carries no time
function and is neither the time column nor an output untouched. -/
theorem run_to_final_time_local_frame {σ : Type} (sm : SlaveModel σ) (d : Disc σ)
    (xs : List (String × List ℚ)) (pts : List ℚ) (n : String)
    (hfn : n ∉ alist_keys d.names_to_time_functions)
    (hout : n ∉ "time" :: d.output_names) :
    alist_get (run_to_final_time sm d xs pts).1.local_data n =
      alist_get d.local_data n := by
  cases hst : (effectiveSettings d).simulation_time with
  | none => simp only [run_to_final_time, hst]
  | some st =>
    by_cases hgt : d.current_time + st > d.final_time
    · obtain ⟨m2, ld2, h2⟩ := set_model_inputs_shape sm xs
        { d with log := d.log ++ [overshootWarning] } d.current_time false
      have hld2 : ld2 = d.local_data := by
        have h5 := set_model_inputs_local_false sm xs
          { d with log := d.log ++ [overshootWarning] } d.current_time
        rw [h2] at h5
        exact h5
      obtain ⟨m3, ld3, h3⟩ := simulate_fmu_shape sm
        { d with log := d.log ++ [overshootWarning], model := m2, local_data := ld2 } pts
      have hld3 : alist_get ld3 n = alist_get ld2 n := by
        have h6 := simulate_fmu_local_not_fn sm
          { d with log := d.log ++ [overshootWarning], model := m2, local_data := ld2 }
          pts n hfn
        rw [h3] at h6
        exact h6
      simp only [run_to_final_time, hst, if_pos hgt]
      simp only [h2, h3, setCurrentTime]
      split_ifs with hgt2
      all_goals rw [storeAll_get_not_mem _ _ _ (by rw [outputColumns_keys]; exact hout),
        hld3, hld2]
    · obtain ⟨m2, ld2, h2⟩ := set_model_inputs_shape sm xs d d.current_time false
      have hld2 : ld2 = d.local_data := by
        have h5 := set_model_inputs_local_false sm xs d d.current_time
        rw [h2] at h5
        exact h5
      obtain ⟨m3, ld3, h3⟩ := simulate_fmu_shape sm
        { d with model := m2, local_data := ld2 } pts
      have hld3 : alist_get ld3 n = alist_get ld2 n := by
        have h6 := simulate_fmu_local_not_fn sm
          { d with model := m2, local_data := ld2 } pts n hfn
        rw [h3] at h6
        exact h6
      simp only [run_to_final_time, hst, if_neg hgt]
      simp only [h2, h3, setCurrentTime]
      split_ifs with hgt2
      all_goals rw [storeAll_get_not_mem _ _ _ (by rw [outputColumns_keys]; exact hout),
        hld3, hld2]

/-- The column stored by a run to final time for the time column or an
output, as a function of the state before the run. -/
theorem run_to_final_time_outputs {σ : Type} (sm : SlaveModel σ) (d : Disc σ)
    (xs : List (String × List ℚ)) (pts : List ℚ) (st : ℚ) (n : String)
    (hst : (effectiveSettings d).simulation_time = some st)
    (hn : n ∈ "time" :: d.output_names) :
    alist_get (run_to_final_time sm d xs pts).1.local_data n =
      alist_get (outputColumns d.output_names pts
        (sim_core sm d.names_to_time_functions d.names_to_references d.output_names
          (applyWrites sm d.names_to_references
            (written_values d.names_to_time_functions xs d.current_time) d.model)
          d.current_time pts).2).reverse n := by
  by_cases hgt : d.current_time + st > d.final_time
  · obtain ⟨m2, ld2, h2⟩ := set_model_inputs_shape sm xs
      { d with log := d.log ++ [overshootWarning] } d.current_time false
    have hm2 : m2 = applyWrites sm d.names_to_references
        (written_values d.names_to_time_functions xs d.current_time) d.model := by
      have h5 := set_model_inputs_model sm xs
        { d with log := d.log ++ [overshootWarning] } d.current_time false
      rw [h2] at h5
      exact h5
    obtain ⟨m3, ld3, h3⟩ := simulate_fmu_shape sm
      { d with log := d.log ++ [overshootWarning], model := m2, local_data := ld2 } pts
    have hrows : (simulate_fmu sm
        { d with log := d.log ++ [overshootWarning], model := m2, local_data := ld2 }
        pts).2 =
        (sim_core sm d.names_to_time_functions d.names_to_references d.output_names m2
          d.current_time pts).2 :=
      simulate_fmu_rows sm _ pts
    simp only [run_to_final_time, hst, if_pos hgt]
    simp only [h2, h3, setCurrentTime]
    split_ifs with hgt2
    all_goals rw [storeAll_get_mem _ _ _ (by rw [outputColumns_keys]; exact hn),
      hrows, hm2]
  · obtain ⟨m2, ld2, h2⟩ := set_model_inputs_shape sm xs d d.current_time false
    have hm2 : m2 = applyWrites sm d.names_to_references
        (written_values d.names_to_time_functions xs d.current_time) d.model := by
      have h5 := set_model_inputs_model sm xs d d.current_time false
      rw [h2] at h5
      exact h5
    obtain ⟨m3, ld3, h3⟩ := simulate_fmu_shape sm
      { d with model := m2, local_data := ld2 } pts
    have hrows : (simulate_fmu sm { d with model := m2, local_data := ld2 } pts).2 =
        (sim_core sm d.names_to_time_functions d.names_to_references d.output_names m2
          d.current_time pts).2 :=
      simulate_fmu_rows sm _ pts
    simp only [run_to_final_time, hst, if_neg hgt]
    simp only [h2, h3, setCurrentTime]
    split_ifs with hgt2
    all_goals rw [storeAll_get_mem _ _ _ (by rw [outputColumns_keys]; exact hn),
      hrows, hm2]

/-- A non-step run leaves the local data of a name that carries no time
function and is neither the time column nor an output untouched. -/
theorem run_local_frame_rtf {σ : Type} (sm : SlaveModel σ) (d : Disc σ) (pts : List ℚ)
    (m : String) (hds : d.do_step = false)
    (hfn : m ∉ alist_keys d.names_to_time_functions)
    (hout : m ∉ "time" :: d.output_names) :
    alist_get (run sm d pts).1.local_data m = alist_get d.local_data m := by
  simp only [run]
  generalize hd1 : restartBlock sm (effectiveSettings d)
      { d with simulation_settings := some (effectiveSettings d) } = d1
  obtain ⟨m1, c1, h1⟩ := restartBlock_shape sm (effectiveSettings d)
      { d with simulation_settings := some (effectiveSettings d) }
  rw [hd1] at h1
  have hld1 : d1.local_data = d.local_data := by rw [h1]
  have hfn1 : m ∉ alist_keys d1.names_to_time_functions := by
    rw [show d1.names_to_time_functions = d.names_to_time_functions from by rw [h1]]
    exact hfn
  have hout1 : m ∉ "time" :: d1.output_names := by
    rw [show d1.output_names = d.output_names from by rw [h1]]
    exact hout
  have hds1 : d1.do_step = false := by
    rw [show d1.do_step = d.do_step from by rw [h1]]
    exact hds
  split_ifs with hal
  · show alist_get d1.local_data m = alist_get d.local_data m
    rw [hld1]
  · have hnds : ¬(d1.do_step = true) := by
      rw [hds1]
      exact Bool.false_ne_true
    simp only [runDispatch]
    rw [if_neg hnds]
    have h7 := run_to_final_time_local_frame sm d1 (getInputData d1) pts m hfn1 hout1
    rcases hros : run_to_final_time sm d1 (getInputData d1) pts with ⟨r1, e1⟩
    rw [hros] at h7
    cases e1 with
    | none =>
      show alist_get ({ r1 with simulation_settings := none } : Disc σ).local_data m =
        alist_get d.local_data m
      have h8 : alist_get r1.local_data m = alist_get d1.local_data m := h7
      rw [show ({ r1 with simulation_settings := none } : Disc σ).local_data =
        r1.local_data from rfl, h8, hld1]
    | some e =>
      show alist_get r1.local_data m = alist_get d.local_data m
      have h8 : alist_get r1.local_data m = alist_get d1.local_data m := h7
      rw [h8, hld1]

/-- The outcome of a restarted run to final time: no error, the integration
grid as time column, and the output columns determined by the pre-run state
through `runColumns`. -/
theorem run_restart_outputs {σ : Type} (sm : SlaveModel σ) (d : Disc σ) (pts : List ℚ)
    (st : ℚ) (hds : d.do_step = false)
    (hrs : (effectiveSettings d).restart = true)
    (hst : (effectiveSettings d).simulation_time = some st)
    (n : String) (hn : n ∈ "time" :: d.output_names) :
    (run sm d pts).2 = none ∧
    (run sm d pts).1.time = some pts ∧
    alist_get (run sm d pts).1.local_data n =
      alist_get (runColumns sm d pts).reverse n := by
  have hrb : restartBlock sm (effectiveSettings d)
      { d with simulation_settings := some (effectiveSettings d) } =
      { d with
        simulation_settings := some (effectiveSettings d),
        current_time := d.initial_time,
        model := sm.exitInitializationMode (sm.enterInitializationMode
          (sm.setupExperiment (sm.reset d.model) d.initial_time)) } := by
    rw [restartBlock, if_pos (Or.inl hrs)]
  simp only [run, hrb]
  split_ifs with hal
  · exact absurd (show d.initial_time < d.initial_time from hal.1) (lt_irrefl _)
  · generalize hR : ({ d with
        simulation_settings := some (effectiveSettings d),
        current_time := d.initial_time,
        model := sm.exitInitializationMode (sm.enterInitializationMode
          (sm.setupExperiment (sm.reset d.model) d.initial_time)) } : Disc σ) = R
    have hRcur : R.current_time = d.initial_time := by rw [← hR]
    have hRds : R.do_step = false := by
      rw [← hR]
      exact hds
    have hReff : effectiveSettings R = effectiveSettings d := by
      rw [effectiveSettings, show R.simulation_settings = some (effectiveSettings d)
        from by rw [← hR]]
      rfl
    have hRmodel : R.model = initModel sm d.model d.initial_time := by
      rw [← hR, initModel]
    have hRfns : R.names_to_time_functions = d.names_to_time_functions := by rw [← hR]
    have hRrefs : R.names_to_references = d.names_to_references := by rw [← hR]
    have hRouts : R.output_names = d.output_names := by rw [← hR]
    have hRgid : getInputData R = getInputData d := by
      rw [← hR]
      rfl
    have hRst : (effectiveSettings R).simulation_time = some st := by
      rw [hReff]
      exact hst
    have hnds : ¬(R.do_step = true) := by
      rw [hRds]
      exact Bool.false_ne_true
    simp only [runDispatch]
    rw [if_neg hnds]
    obtain ⟨heA, hcurA, hlogA, htmA⟩ := run_to_final_time_char sm R (getInputData R) pts st hRst
    have houtA := run_to_final_time_outputs sm R (getInputData R) pts st n hRst
      (by rw [hRouts]; exact hn)
    rcases hros : run_to_final_time sm R (getInputData R) pts with ⟨r1, e1⟩
    rw [hros] at heA htmA houtA
    obtain rfl : e1 = none := heA
    simp only [runFinish]
    refine ⟨by trivial, ?_, ?_⟩
    · exact htmA
    · have h9 : alist_get r1.local_data n =
          alist_get (outputColumns R.output_names pts
            (sim_core sm R.names_to_time_functions R.names_to_references R.output_names
              (applyWrites sm R.names_to_references
                (written_values R.names_to_time_functions (getInputData R) R.current_time)
                R.model)
              R.current_time pts).2).reverse n := houtA
      show alist_get r1.local_data n = alist_get (runColumns sm d pts).reverse n
      rw [h9]
      simp only [runColumns]
      rw [hRouts, hRfns, hRrefs, hRcur, hRmodel, hRgid]

/-- Congruence for the stored output columns of a restarted run. -/
theorem runColumns_congr {σ : Type} (sm : SlaveModel σ) (da db : Disc σ) (pts : List ℚ)
    (houts : da.output_names = db.output_names)
    (hfns : da.names_to_time_functions = db.names_to_time_functions)
    (hrefs : da.names_to_references = db.names_to_references)
    (hinit : da.initial_time = db.initial_time)
    (hmodel : initModel sm da.model da.initial_time = initModel sm db.model db.initial_time)
    (hgid : getInputData da = getInputData db) :
    runColumns sm da pts = runColumns sm db pts := by
  simp only [runColumns]
  rw [hmodel, houts, hfns, hrefs, hinit, hgid]

/-! ### The claims -/

/-- C1: after the restart handling opening `_run`, `execute` raises
`AlreadyAtFinalTime` exactly when the current time equals the final time and
is strictly greater than the initial time; in every other state this error is
not raised. -/
theorem C1_already_at_final_time_iff {σ : Type} (sm : SlaveModel σ) (d : Disc σ)
    (pts : List ℚ) :
    (∃ t, (run sm d pts).2 = some (FmuError.alreadyAtFinalTime t)) ↔
      (d.initial_time <
          (restartBlock sm (effectiveSettings d)
            { d with simulation_settings := some (effectiveSettings d) }).current_time ∧
        (restartBlock sm (effectiveSettings d)
            { d with simulation_settings := some (effectiveSettings d) }).current_time =
          d.final_time) := by
  simp only [run]
  generalize hd1 : restartBlock sm (effectiveSettings d)
      { d with simulation_settings := some (effectiveSettings d) } = d1
  obtain ⟨m1, c1, h1⟩ := restartBlock_shape sm (effectiveSettings d)
      { d with simulation_settings := some (effectiveSettings d) }
  rw [hd1] at h1
  have hinit : d1.initial_time = d.initial_time := by rw [h1]
  have hfin : d1.final_time = d.final_time := by rw [h1]
  split_ifs with hcond
  · constructor
    · intro _
      rw [← hinit, ← hfin]
      exact hcond
    · intro _
      exact ⟨d1.current_time, rfl⟩
  · constructor
    · rintro ⟨t, ht⟩
      exfalso
      rcases hdisp : runDispatch sm d1 pts with ⟨d2, e2⟩
      rw [hdisp] at ht
      have hno := runDispatch_no_already sm d1 pts t
      rw [hdisp] at hno
      cases e2 with
      | none => simp [runFinish] at ht
      | some e =>
        simp only [runFinish] at ht hno
        exact hno ht
    · intro hrhs
      exact absurd ⟨hinit ▸ hrhs.1, hfin ▸ hrhs.2⟩ hcond

/-- C4: the slave is reset and initialization re-bracketed with start time
equal to the initial time exactly when the effective restart setting holds or
the current time equals the initial time; otherwise the slave state and the
current time are kept from the previous execution. -/
theorem C4_restart_iff {σ : Type} (sm : SlaveModel σ) (d : Disc σ) :
    ((effectiveSettings d).restart = true ∨ d.current_time = d.initial_time →
        restartBlock sm (effectiveSettings d) d =
          { d with
            current_time := d.initial_time,
            model := sm.exitInitializationMode (sm.enterInitializationMode
              (sm.setupExperiment (sm.reset d.model) d.initial_time)) }) ∧
      (¬((effectiveSettings d).restart = true ∨ d.current_time = d.initial_time) →
        restartBlock sm (effectiveSettings d) d = d) := by
  constructor
  · intro h
    unfold restartBlock
    rw [if_pos h]
  · intro h
    unfold restartBlock
    rw [if_neg h]

theorem C4_restart_iff_witness :
    (restartBlock unitSlave (effectiveSettings (mkDisc () 0 2 1 false true 1 none []))
        (mkDisc () 0 2 1 false true 1 none []) =
      { mkDisc () 0 2 1 false true 1 none [] with
        current_time := 0,
        model := () }) ∧
    (restartBlock unitSlave (effectiveSettings (mkDisc () 0 2 1 false false 1 none []))
        (mkDisc () 0 2 1 false false 1 none []) =
      mkDisc () 0 2 1 false false 1 none []) := by
  constructor
  · exact (C4_restart_iff unitSlave (mkDisc () 0 2 1 false true 1 none [])).1
      (Or.inl (by decide))
  · exact (C4_restart_iff unitSlave (mkDisc () 0 2 1 false false 1 none [])).2
      (by decide)

/-- C7: a `set_next_execution` override applies to exactly the next execution:
it never modifies the instantiation defaults, the following run uses the
overridden settings as its effective settings, and once that run completes the
settings revert to the defaults fixed at instantiation. -/
theorem C7_set_next_execution_one_shot {σ : Type} (sm : SlaveModel σ) (d : Disc σ)
    (r : Option Bool) (st ts : Option ℚ) (pts : List ℚ) :
    (set_next_execution d r st ts).default_simulation_settings
        = d.default_simulation_settings ∧
      effectiveSettings (set_next_execution d r st ts) =
        { restart := r.getD d.default_simulation_settings.restart,
          time_step := ts.getD d.default_simulation_settings.time_step,
          simulation_time :=
            match st with
            | some x => some x
            | none => d.default_simulation_settings.simulation_time } ∧
      ((run sm (set_next_execution d r st ts) pts).2 = none →
        (run sm (set_next_execution d r st ts) pts).1.simulation_settings = none ∧
        effectiveSettings (run sm (set_next_execution d r st ts) pts).1 =
          d.default_simulation_settings) := by
  refine ⟨?_, ?_, ?_⟩
  · cases r <;> cases st <;> cases ts <;> rfl
  · cases r <;> cases st <;> cases ts <;> rfl
  · intro h
    have hclear := run_success_settings sm (set_next_execution d r st ts) pts h
    have hdef := run_defaults sm (set_next_execution d r st ts) pts
    refine ⟨hclear, ?_⟩
    rw [effectiveSettings, hclear, Option.getD_none, hdef]
    cases r <;> cases st <;> cases ts <;> rfl

theorem C7_set_next_execution_one_shot_witness :
    (run unitSlave (set_next_execution (mkDisc () 0 2 0 false true 1 (some 2) [])
        (some false) (some 0) (some 1)) []).1.simulation_settings = none ∧
      effectiveSettings (run unitSlave (set_next_execution
          (mkDisc () 0 2 0 false true 1 (some 2) []) (some false) (some 0) (some 1)) []).1 =
        (mkDisc () 0 2 0 false true 1 (some 2) []).default_simulation_settings := by
  refine (C7_set_next_execution_one_shot unitSlave (mkDisc () 0 2 0 false true 1 (some 2) [])
      (some false) (some 0) (some 1) []).2.2 ?_
  simp [run, mkDisc, effectiveSettings, set_next_execution, restartBlock, runDispatch,
    runFinish, run_to_final_time, getInputData, set_model_inputs, simulate_fmu, sim_loop,
    do_when_step_finished, dwsf_loop, setCurrentTime, storeAll, alist_get, alist_set,
    outputColumns, outputColumnsAux, alist_keys,
    show ¬((2 : ℚ) < 0) from by decide]

/-- C8: requesting step-by-step control without co-simulation forces the
co-simulation model type with a logged warning; the selection is total, it
never raises, and it does not consult the kinds offered by the FMU. -/
theorem C8_do_step_forces_co_simulation :
    (∀ kinds : ModelKinds,
        selectModelType kinds true false = (CO_SIMULATION, [doStepCoSimulationWarning])) ∧
      (∀ (kinds : ModelKinds) (ds ucs : Bool),
        selectModelType kinds ds ucs =
          ((if ucs || ds then CO_SIMULATION else MODEL_EXCHANGE),
            if ds && !ucs then [doStepCoSimulationWarning] else [])) ∧
      (∀ (k1 k2 : ModelKinds) (ds ucs : Bool),
        selectModelType k1 ds ucs = selectModelType k2 ds ucs) := by
  refine ⟨fun kinds => rfl, fun kinds ds ucs => ?_, fun k1 k2 ds ucs => rfl⟩
  cases ds <;> cases ucs <;> rfl

theorem restartBlock_current {σ : Type} (sm : SlaveModel σ) (s : SimulationSettings)
    (d : Disc σ) :
    (restartBlock sm s d).current_time = d.initial_time ∨
      (restartBlock sm s d).current_time = d.current_time := by
  unfold restartBlock
  split_ifs
  · exact Or.inl rfl
  · exact Or.inr rfl

/-- The dispatched simulation preserves the time invariant when the step and
the simulation duration are non-negative. -/
theorem runDispatch_timeinv {σ : Type} (sm : SlaveModel σ) (d : Disc σ) (pts : List ℚ)
    (hinv : TimeInv d) (hif : d.initial_time ≤ d.final_time)
    (hstep : 0 ≤ (effectiveSettings d).time_step)
    (hsim : ∀ st, (effectiveSettings d).simulation_time = some st → 0 ≤ st) :
    TimeInv (runDispatch sm d pts).1 := by
  have hinit : (runDispatch sm d pts).1.initial_time = d.initial_time := by
    obtain ⟨m, ld, tt, c, lg, e, hsh⟩ := runDispatch_shape sm d pts
    rw [hsh]
  have hfin : (runDispatch sm d pts).1.final_time = d.final_time := by
    obtain ⟨m, ld, tt, c, lg, e, hsh⟩ := runDispatch_shape sm d pts
    rw [hsh]
  have hcur : d.initial_time ≤ (runDispatch sm d pts).1.current_time ∧
      (runDispatch sm d pts).1.current_time ≤ d.final_time := by
    simp only [runDispatch]
    split_ifs with hds
    · rcases run_one_step_char sm d (getInputData d) with ⟨_, hc, _⟩ | ⟨hle, hc, _, _⟩
      · rw [hc]
        exact ⟨hinv.1, hinv.2⟩
      · rw [hc]
        exact ⟨le_trans hinv.1 (le_add_of_nonneg_right hstep), hle⟩
    · cases hst : (effectiveSettings d).simulation_time with
      | none =>
        simp only [run_to_final_time, hst]
        exact ⟨hinv.1, hinv.2⟩
      | some st =>
        obtain ⟨_, hc, _, _⟩ := run_to_final_time_char sm d (getInputData d) pts st hst
        rw [hc]
        split_ifs with hgt
        · exact ⟨hif, le_refl _⟩
        · exact ⟨le_trans hinv.1 (le_add_of_nonneg_right (hsim st hst)), not_lt.mp hgt⟩
  exact ⟨by rw [hinit]; exact hcur.1, by rw [hfin]; exact hcur.2⟩

/-- C5: the current time always stays between the initial and the final time:
setting a current time past the final time raises `CurrentExceedsFinal`, a
run-to-final-time execution whose requested stop time overflows the final
time is clamped to the final time with a logged warning and no error, and a
whole run preserves the invariant for non-negative durations. -/
theorem C5_time_bounds :
    (∀ (σ : Type) (d : Disc σ) (t : ℚ),
        (d.final_time < t →
          setCurrentTime d t = (d, some (FmuError.currentExceedsFinal t d.final_time))) ∧
        (t ≤ d.final_time → setCurrentTime d t = ({ d with current_time := t }, none))) ∧
      (∀ (σ : Type) (sm : SlaveModel σ) (d : Disc σ) (xs : List (String × List ℚ))
          (pts : List ℚ) (st : ℚ),
        (effectiveSettings d).simulation_time = some st →
        d.final_time < d.current_time + st →
        (run_to_final_time sm d xs pts).2 = none ∧
          (run_to_final_time sm d xs pts).1.current_time = d.final_time ∧
          (run_to_final_time sm d xs pts).1.log = d.log ++ [overshootWarning]) ∧
      (∀ (σ : Type) (sm : SlaveModel σ) (d : Disc σ) (pts : List ℚ),
        TimeInv d → d.initial_time ≤ d.final_time →
        0 ≤ (effectiveSettings d).time_step →
        (∀ st, (effectiveSettings d).simulation_time = some st → 0 ≤ st) →
        TimeInv (run sm d pts).1) := by
  refine ⟨?_, ?_, ?_⟩
  · intro σ d t
    constructor
    · intro h
      simp only [setCurrentTime]
      rw [if_pos h]
    · intro h
      simp only [setCurrentTime]
      rw [if_neg (not_lt.mpr h)]
  · intro σ sm d xs pts st hst hgt
    obtain ⟨he, hcur, hlog, _⟩ := run_to_final_time_char sm d xs pts st hst
    exact ⟨he, by rw [hcur, if_pos hgt], by rw [hlog, if_pos hgt]⟩
  · intro σ sm d pts hinv hif hstep hsim
    simp only [run]
    generalize hd1 : restartBlock sm (effectiveSettings d)
        { d with simulation_settings := some (effectiveSettings d) } = d1
    obtain ⟨m1, c1, h1⟩ := restartBlock_shape sm (effectiveSettings d)
        { d with simulation_settings := some (effectiveSettings d) }
    rw [hd1] at h1
    have hinit : d1.initial_time = d.initial_time := by rw [h1]
    have hfin : d1.final_time = d.final_time := by rw [h1]
    have heff : effectiveSettings d1 = effectiveSettings d := by
      rw [effectiveSettings, show d1.simulation_settings = some (effectiveSettings d)
        from by rw [h1]]
      rfl
    have hcur1 : d1.current_time = d.initial_time ∨ d1.current_time = d.current_time := by
      have := restartBlock_current sm (effectiveSettings d)
        { d with simulation_settings := some (effectiveSettings d) }
      rw [hd1] at this
      exact this
    have hinv1 : TimeInv d1 := by
      constructor
      · rcases hcur1 with h | h
        · rw [hinit, h]
        · rw [hinit, h]
          exact hinv.1
      · rcases hcur1 with h | h
        · rw [hfin, h]
          exact hif
        · rw [hfin, h]
          exact hinv.2
    split_ifs with hcond
    · exact hinv1
    · rcases hdisp : runDispatch sm d1 pts with ⟨d2, e2⟩
      have hd2 : TimeInv d2 := by
        have := runDispatch_timeinv sm d1 pts hinv1 (by rw [hinit, hfin]; exact hif)
          (by rw [heff]; exact hstep) (by rw [heff]; exact hsim)
        rw [hdisp] at this
        exact this
      cases e2 with
      | none => exact hd2
      | some e => exact hd2

theorem C5_time_bounds_witness :
    setCurrentTime (mkDisc () 0 2 1 false true 1 none []) 3 =
        ((mkDisc () 0 2 1 false true 1 none []), some (FmuError.currentExceedsFinal 3 2)) ∧
      (run_to_final_time unitSlave (mkDisc () 0 2 0 false false 1 (some 3) []) [] []).2
          = none ∧
      (run_to_final_time unitSlave
          (mkDisc () 0 2 0 false false 1 (some 3) []) [] []).1.current_time = 2 ∧
      TimeInv (run unitSlave (mkDisc () 0 2 0 false false 1 (some 3) []) []).1 := by
  refine ⟨(C5_time_bounds.1 Unit (mkDisc () 0 2 1 false true 1 none []) 3).1 (by decide),
    ?_, ?_, ?_⟩
  · exact (C5_time_bounds.2.1 Unit unitSlave (mkDisc () 0 2 0 false false 1 (some 3) [])
      [] [] 3 rfl (by simp only [mkDisc, zero_add]; decide)).1
  · exact (C5_time_bounds.2.1 Unit unitSlave (mkDisc () 0 2 0 false false 1 (some 3) [])
      [] [] 3 rfl (by simp only [mkDisc, zero_add]; decide)).2.1
  · refine C5_time_bounds.2.2 Unit unitSlave (mkDisc () 0 2 0 false false 1 (some 3) []) []
      ⟨by decide, by decide⟩ (by decide) (by decide) ?_
    intro st hst
    have h3 : st = 3 := by
      simp [mkDisc, effectiveSettings] at hst
      exact hst.symm
    rw [h3]
    decide

/-- C9: a registered time function raising `ValueError` (`none`) at the
evaluation time is silently skipped: its name is written neither by the input
pass nor by the step-finished callback, its local data is left untouched by
both, and the swallowed error never reaches the caller: `_run` cannot return a
`ValueError` of this kind. -/
theorem C9_value_error_skipped {σ : Type} (sm : SlaveModel σ) (d : Disc σ)
    (pts : List ℚ) (xs : List (String × List ℚ)) (t : ℚ) (n : String)
    (f : ℚ → Option ℚ) (hnd : (alist_keys d.names_to_time_functions).Nodup)
    (hmem : (n, f) ∈ d.names_to_time_functions) (hfail : f t = none) :
    n ∉ alist_keys (written_values d.names_to_time_functions xs t) ∧
    n ∉ alist_keys (step_finished_writes d.names_to_time_functions t) ∧
    alist_get (set_model_inputs sm d xs t true).local_data n = alist_get d.local_data n ∧
    alist_get (do_when_step_finished sm d t).local_data n = alist_get d.local_data n ∧
    (run sm d pts).2 ≠ some FmuError.valueError := by
  have hget : alist_get d.names_to_time_functions n = some f :=
    alist_get_of_mem_nodup _ _ _ hnd hmem
  refine ⟨?_, ?_, ?_, ?_, run_no_value_error sm d pts⟩
  · intro hc
    rw [alist_keys, List.mem_map] at hc
    obtain ⟨q, hq, hqn⟩ := hc
    rw [written_values, List.mem_filterMap] at hq
    obtain ⟨p, hp, hgp⟩ := hq
    cases hf2 : alist_get d.names_to_time_functions p.1 with
    | none =>
      rw [hf2, Option.some.injEq] at hgp
      have hpn : p.1 = n := by
        rw [← hgp] at hqn
        exact hqn
      rw [hpn, hget] at hf2
      exact Option.noConfusion hf2
    | some f2 =>
      rw [hf2, Option.map_eq_some'] at hgp
      obtain ⟨v, hv, hq2⟩ := hgp
      have hpn : p.1 = n := by
        rw [← hq2] at hqn
        exact hqn
      rw [hpn, hget, Option.some.injEq] at hf2
      rw [← hf2, hfail] at hv
      exact Option.noConfusion hv
  · intro hc
    rw [alist_keys, List.mem_map] at hc
    obtain ⟨q, hq, hqn⟩ := hc
    rw [step_finished_writes, List.mem_filterMap] at hq
    obtain ⟨p, hp, hgp⟩ := hq
    rw [Option.map_eq_some'] at hgp
    obtain ⟨v, hv, hq2⟩ := hgp
    have hpn : p.1 = n := by
      rw [← hq2] at hqn
      exact hqn
    have hg2 : alist_get d.names_to_time_functions p.1 = some p.2 :=
      alist_get_of_mem_nodup _ _ _ hnd hp
    rw [hpn, hget, Option.some.injEq] at hg2
    rw [← hg2, hfail] at hv
    exact Option.noConfusion hv
  · rw [set_model_inputs_local_true]
    refine storeAll_get_not_mem _ _ _ ?_
    intro hc
    rw [alist_keys, List.mem_map] at hc
    obtain ⟨q, hq, hqn⟩ := hc
    rw [stored_inputs, List.mem_filterMap] at hq
    obtain ⟨p, hp, hgp⟩ := hq
    cases hf2 : alist_get d.names_to_time_functions p.1 with
    | none =>
      rw [hf2] at hgp
      exact Option.noConfusion hgp
    | some f2 =>
      rw [hf2, Option.map_eq_some'] at hgp
      obtain ⟨v, hv, hq2⟩ := hgp
      have hpn : p.1 = n := by
        rw [← hq2] at hqn
        exact hqn
      rw [hpn, hget, Option.some.injEq] at hf2
      rw [← hf2, hfail] at hv
      exact Option.noConfusion hv
  · exact dwsf_loop_local_failed sm d.names_to_time_functions d t n f hnd hmem hfail

/-- Witness for C9 on a concrete discipline whose only time function fails. -/
theorem C9_value_error_skipped_witness :
    "u" ∉ alist_keys (written_values discC9.names_to_time_functions [("u", [3])] 0) ∧
    "u" ∉ alist_keys (step_finished_writes discC9.names_to_time_functions 0) ∧
    alist_get (set_model_inputs unitSlave discC9 [("u", [3])] 0 true).local_data "u" =
      alist_get discC9.local_data "u" ∧
    alist_get (do_when_step_finished unitSlave discC9 0).local_data "u" =
      alist_get discC9.local_data "u" ∧
    (run unitSlave discC9 []).2 ≠ some FmuError.valueError :=
  C9_value_error_skipped unitSlave discC9 [] [("u", [3])] 0 "u" funC9
    (by decide) (List.mem_singleton.mpr rfl) (by rfl)

/-- C10: at the entry of `execute`, an input supplied as a `TimeSeries` is
recorded in the converted input data as the one-element array holding the
first observable value of the series — an answer independent of the current
time — whereas an input supplied as a time-indexed callable is recorded as its
value evaluated at the current time. -/
theorem C10_entry_conversion {σ : Type} (d : Disc σ)
    (input_data : List (String × InputValue)) (arrs : List (String × List ℚ))
    (n : String) (ts : TimeSeries) (f : ℚ → Option ℚ)
    (h : executeEntry d input_data = some arrs) :
    (alist_get (filterInputs d input_data) n = some (InputValue.series ts) →
      alist_get arrs n = some [ts.observable.headI]) ∧
    (alist_get (filterInputs d input_data) n = some (InputValue.func f) →
      alist_get arrs n = (f d.current_time).map (fun v => [v])) := by
  have hg := convertAll_get d.current_time (filterInputs d input_data) arrs
    (show convertAll d.current_time (filterInputs d input_data) = some arrs from h) n
  constructor
  · intro hs
    rw [hg, hs]
    rfl
  · intro hs
    rw [hg, hs]
    rfl

/-- Witness for C10 on a concrete discipline and input mapping. -/
theorem C10_entry_conversion_witness :
    (alist_get (filterInputs discC10 inputC10) "u" = some (InputValue.series tsC10) →
      alist_get arrsC10 "u" = some [tsC10.observable.headI]) ∧
    (alist_get (filterInputs discC10 inputC10) "u" = some (InputValue.func funC9) →
      alist_get arrsC10 "u" = (funC9 discC10.current_time).map (fun v => [v])) :=
  C10_entry_conversion discC10 inputC10 arrsC10 "u" tsC10 funC9 (by rfl)

/-- C2: at each internal integration point, a registered time-series input is
re-evaluated at that time through `TimeSeries.compute` and written to the
slave — and the value is the hold value (the series value at the greatest
stored time not exceeding the evaluation time) for every causality: the
engine registers `compute` without consulting `causalities_to_variable_names`,
so a variable of causality `input` receives the hold value too, not the
piecewise-linear interpolation the claim states (see the counterexample). -/
theorem C2_time_series_hold_both_causalities {σ : Type} (d : Disc σ) (n : String)
    (ts : TimeSeries) (c : String) (names : List String) (t v : ℚ)
    (hsort : ts.time.Pairwise (· < ·)) (hlen : ts.time.length = ts.observable.length)
    (hnd : (alist_keys d.names_to_time_functions).Nodup)
    (hfn : (n, fun u => ts.compute u) ∈ d.names_to_time_functions)
    (hc : alist_get d.causalities_to_variable_names c = some names)
    (hn : n ∈ names) :
    ((n, v) ∈ step_finished_writes d.names_to_time_functions t ↔ ts.compute t = some v) ∧
    ts.compute t = ts.hold_query t := by
  refine ⟨⟨?_, ?_⟩, compute_eq_hold_query ts hsort hlen t⟩
  · intro hmem
    rw [step_finished_writes, List.mem_filterMap] at hmem
    obtain ⟨p, hp, hgp⟩ := hmem
    rw [Option.map_eq_some'] at hgp
    obtain ⟨w, hw, hq⟩ := hgp
    have hpn : p.1 = n := congrArg Prod.fst hq
    have hpv : w = v := congrArg Prod.snd hq
    have hg1 : alist_get d.names_to_time_functions p.1 = some p.2 :=
      alist_get_of_mem_nodup _ _ _ hnd hp
    have hg2 : alist_get d.names_to_time_functions n = some (fun u => ts.compute u) :=
      alist_get_of_mem_nodup _ _ _ hnd hfn
    rw [hpn, hg2, Option.some.injEq] at hg1
    rw [← hg1, hpv] at hw
    exact hw
  · intro hcomp
    rw [step_finished_writes, List.mem_filterMap]
    refine ⟨(n, fun u => ts.compute u), hfn, ?_⟩
    rw [show ((n, fun u => ts.compute u) : String × (ℚ → Option ℚ)).2 t =
      some v from hcomp]
    rfl

/-- Witness for C2 on a concrete series registered for the causality-`input`
variable `u`. -/
theorem C2_time_series_hold_both_causalities_witness :
    (("u", (0 : ℚ)) ∈ step_finished_writes discC2.names_to_time_functions 1 ↔
      tsC2.compute 1 = some 0) ∧
    tsC2.compute 1 = tsC2.hold_query 1 :=
  C2_time_series_hold_both_causalities discC2 "u" tsC2 "input" ["u"] 1 0
    (by decide) (by decide) (by decide) (List.mem_singleton.mpr rfl)
    (by decide) (List.mem_singleton.mpr rfl)

/-- Counterexample to the linear half of C2: `u` has causality `input`, yet at
the internal integration point 1 the step-finished callback writes the hold
value 0 of the series to the slave (reference 7), where the piecewise-linear
interpolation of the series at time 1 is 2. -/
theorem C2_counterexample :
    alist_get discC2.causalities_to_variable_names "input" = some ["u"] ∧
    (do_when_step_finished logSlave discC2 1).model = [(7, 0)] ∧
    TimeSeries.compute tsC2 1 = some 0 ∧
    TimeSeries.linear_interpolation tsC2 1 = some 2 := by
  refine ⟨by decide, ?_, ?_, ?_⟩
  · show (dwsf_loop logSlave discC2 discC2.names_to_time_functions 1).model = [(7, 0)]
    norm_num [discC2, mkDisc, fnsC2, tsC2, dwsf_loop, TimeSeries.compute, holdValue,
      refOf, alist_get, logSlave]
    decide
  · norm_num [tsC2, TimeSeries.compute, holdValue]
  · norm_num [tsC2, TimeSeries.linear_interpolation, linAux]

/-- C3: with `do_step = true`, one `execute` call advances the current time
by exactly one time step, evaluates the registered time-series inputs at the
arrival time (current time plus time step) and writes them to the slave
before the step, and stores a single output row whose time value is the
arrival time; in the concrete scenario (initial time 0, time step 1/5, final
time 2, restart false) ten consecutive calls record the time values
1/5, 2/5, …, 2 without error and the eleventh raises `AlreadyAtFinalTime`. -/
theorem C3_do_step_single_advance {σ : Type} (sm : SlaveModel σ) (d : Disc σ)
    (pts : List ℚ) (hds : d.do_step = true)
    (hnr : (effectiveSettings d).restart = false)
    (hne : d.current_time ≠ d.initial_time) (hcf : d.current_time ≠ d.final_time)
    (htime : "time" ∉ d.output_names)
    (hfit : d.current_time + (effectiveSettings d).time_step ≤ d.final_time) :
    ((run sm d pts).2 = none ∧
      (run sm d pts).1.current_time =
        d.current_time + (effectiveSettings d).time_step ∧
      (run sm d pts).1.time =
        some [d.current_time + (effectiveSettings d).time_step] ∧
      (run sm d pts).1.model = sm.doStep
        (applyWrites sm d.names_to_references
          (written_values d.names_to_time_functions (getInputData d)
            (d.current_time + (effectiveSettings d).time_step)) d.model)
        d.current_time (effectiveSettings d).time_step ∧
      alist_get (run sm d pts).1.local_data "time" =
        some [d.current_time + (effectiveSettings d).time_step]) ∧
    (((execChain 1).1.time = some [1/5] ∧ (execChain 2).1.time = some [2/5] ∧
        (execChain 3).1.time = some [3/5] ∧ (execChain 4).1.time = some [4/5] ∧
        (execChain 5).1.time = some [1] ∧ (execChain 6).1.time = some [6/5] ∧
        (execChain 7).1.time = some [7/5] ∧ (execChain 8).1.time = some [8/5] ∧
        (execChain 9).1.time = some [9/5] ∧ (execChain 10).1.time = some [2]) ∧
      ((execChain 1).2 = none ∧ (execChain 2).2 = none ∧ (execChain 3).2 = none ∧
        (execChain 4).2 = none ∧ (execChain 5).2 = none ∧ (execChain 6).2 = none ∧
        (execChain 7).2 = none ∧ (execChain 8).2 = none ∧ (execChain 9).2 = none ∧
        (execChain 10).2 = none) ∧
      (execChain 11).2 = some (FmuError.alreadyAtFinalTime 2)) :=
  ⟨run_do_step_advance sm d pts hds hnr hne hcf htime hfit, execChain_facts⟩

/-- Witness for C3 on a concrete do-step discipline at current time 1. -/
theorem C3_do_step_single_advance_witness :
    ((run unitSlave discC3 []).2 = none ∧
      (run unitSlave discC3 []).1.current_time =
        discC3.current_time + (effectiveSettings discC3).time_step ∧
      (run unitSlave discC3 []).1.time =
        some [discC3.current_time + (effectiveSettings discC3).time_step] ∧
      (run unitSlave discC3 []).1.model = unitSlave.doStep
        (applyWrites unitSlave discC3.names_to_references
          (written_values discC3.names_to_time_functions (getInputData discC3)
            (discC3.current_time + (effectiveSettings discC3).time_step)) discC3.model)
        discC3.current_time (effectiveSettings discC3).time_step ∧
      alist_get (run unitSlave discC3 []).1.local_data "time" =
        some [discC3.current_time + (effectiveSettings discC3).time_step]) ∧
    (((execChain 1).1.time = some [1/5] ∧ (execChain 2).1.time = some [2/5] ∧
        (execChain 3).1.time = some [3/5] ∧ (execChain 4).1.time = some [4/5] ∧
        (execChain 5).1.time = some [1] ∧ (execChain 6).1.time = some [6/5] ∧
        (execChain 7).1.time = some [7/5] ∧ (execChain 8).1.time = some [8/5] ∧
        (execChain 9).1.time = some [9/5] ∧ (execChain 10).1.time = some [2]) ∧
      ((execChain 1).2 = none ∧ (execChain 2).2 = none ∧ (execChain 3).2 = none ∧
        (execChain 4).2 = none ∧ (execChain 5).2 = none ∧ (execChain 6).2 = none ∧
        (execChain 7).2 = none ∧ (execChain 8).2 = none ∧ (execChain 9).2 = none ∧
        (execChain 10).2 = none) ∧
      (execChain 11).2 = some (FmuError.alreadyAtFinalTime 2)) :=
  C3_do_step_single_advance unitSlave discC3 [] rfl rfl (by decide) (by decide)
    (by decide) (by norm_num [discC3, mkDisc, effectiveSettings])

/-- C6: with restart configured, two consecutive `execute` calls with the same
(time-independent) inputs succeed and produce the same time column and the
same stored output trajectories, the slave reset being deterministic. -/
theorem C6_restart_deterministic {σ : Type} (sm : SlaveModel σ) (d : Disc σ)
    (inp : List (String × InputValue)) (pts : List ℚ) (st : ℚ) (n : String)
    (hreset : ∀ m m', sm.reset m = sm.reset m')
    (hds : d.do_step = false)
    (hrs : d.default_simulation_settings.restart = true)
    (hss : d.simulation_settings = none)
    (hst : d.default_simulation_settings.simulation_time = some st)
    (hdisj : ∀ m ∈ d.input_names, m ∉ "time" :: d.output_names)
    (hti : ∀ p ∈ filterInputs d inp, isTimeIndep p.2 = true)
    (hn : n ∈ "time" :: d.output_names) :
    (executeDisc sm d inp pts).2 = none ∧
    (executeDisc sm (executeDisc sm d inp pts).1 inp pts).2 = none ∧
    (executeDisc sm (executeDisc sm d inp pts).1 inp pts).1.time =
      (executeDisc sm d inp pts).1.time ∧
    alist_get (executeDisc sm (executeDisc sm d inp pts).1 inp pts).1.local_data n =
      alist_get (executeDisc sm d inp pts).1.local_data n := by
  have heffd : effectiveSettings d = d.default_simulation_settings := by
    rw [effectiveSettings, hss]
    rfl
  obtain ⟨a, ha⟩ := convertAll_total d.current_time (filterInputs d inp) hti
  have hE1 : executeDisc sm d inp pts = run sm (entryDisc d inp a) pts := by
    rw [executeDisc, ha]
    rfl
  have heffP1 : effectiveSettings (entryDisc d inp a) = d.default_simulation_settings :=
    heffd
  obtain ⟨he1, htm1, hloc1⟩ := run_restart_outputs sm (entryDisc d inp a) pts st
    hds (by rw [heffP1]; exact hrs) (by rw [heffP1]; exact hst) n hn
  have hE1err : (executeDisc sm d inp pts).2 = none := by
    rw [hE1]
    exact he1
  obtain ⟨fnsx, mx, ldx, ttx, cx, ssx, lgx, ex, hsh⟩ := executeDisc_shape sm d inp pts
  have hD1init : (executeDisc sm d inp pts).1.initial_time = d.initial_time := by rw [hsh]
  have hD1ds : (executeDisc sm d inp pts).1.do_step = false := by
    rw [hsh]
    exact hds
  have hD1def : (executeDisc sm d inp pts).1.default_simulation_settings =
      d.default_simulation_settings := by rw [hsh]
  have hD1in : (executeDisc sm d inp pts).1.input_names = d.input_names := by rw [hsh]
  have hD1outs : (executeDisc sm d inp pts).1.output_names = d.output_names := by rw [hsh]
  have hD1refs : (executeDisc sm d inp pts).1.names_to_references =
      d.names_to_references := by rw [hsh]
  have hD1definp : (executeDisc sm d inp pts).1.default_inputs = d.default_inputs := by
    rw [hsh]
  have hD1ss : (executeDisc sm d inp pts).1.simulation_settings = none := by
    rw [hE1]
    exact run_success_settings sm (entryDisc d inp a) pts he1
  have hfiD1 : filterInputs (executeDisc sm d inp pts).1 inp = filterInputs d inp :=
    filterInputs_congr _ _ hD1in hD1definp inp
  have ha2 : convertAll (executeDisc sm d inp pts).1.current_time
      (filterInputs (executeDisc sm d inp pts).1 inp) = some a := by
    rw [hfiD1, convertAll_indep (executeDisc sm d inp pts).1.current_time d.current_time
      (filterInputs d inp) hti]
    exact ha
  have hE2 : executeDisc sm (executeDisc sm d inp pts).1 inp pts =
      run sm (entryDisc (executeDisc sm d inp pts).1 inp a) pts := by
    rw [executeDisc, ha2]
    rfl
  have heffD1 : effectiveSettings (executeDisc sm d inp pts).1 =
      d.default_simulation_settings := by
    rw [effectiveSettings, hD1ss, hD1def]
    rfl
  have heffP2 : effectiveSettings (entryDisc (executeDisc sm d inp pts).1 inp a) =
      d.default_simulation_settings := heffD1
  obtain ⟨he2, htm2, hloc2⟩ := run_restart_outputs sm
    (entryDisc (executeDisc sm d inp pts).1 inp a) pts st
    hD1ds (by rw [heffP2]; exact hrs) (by rw [heffP2]; exact hst) n
    (by rw [show (entryDisc (executeDisc sm d inp pts).1 inp a).output_names =
      d.output_names from hD1outs]; exact hn)
  have hgid : getInputData (entryDisc (executeDisc sm d inp pts).1 inp a) =
      getInputData (entryDisc d inp a) := by
    apply getInputData_congr
    · exact hD1in
    · intro m hm
      have hmd : m ∈ d.input_names := by
        rw [← hD1in]
        exact hm
      show alist_get (storeAll (executeDisc sm d inp pts).1.local_data a) m =
        alist_get (storeAll d.local_data a) m
      by_cases hma : m ∈ alist_keys a
      · exact storeAll_get_mem_congr a _ _ m hma
      · rw [storeAll_get_not_mem _ _ _ hma, storeAll_get_not_mem _ _ _ hma]
        have hmfn : m ∉ alist_keys (entryTimeFunctions (filterInputs d inp)) := by
          intro hc
          refine hma ?_
          rw [convertAll_keys d.current_time (filterInputs d inp) a ha]
          exact entryTimeFunctions_keys_sub _ m hc
        have hmout : m ∉ "time" :: d.output_names := hdisj m hmd
        rw [hE1]
        have h7 := run_local_frame_rtf sm (entryDisc d inp a) pts m hds hmfn hmout
        rw [h7]
        show alist_get (storeAll d.local_data a) m = alist_get d.local_data m
        rw [storeAll_get_not_mem _ _ _ hma]
  have hinit21 : (entryDisc (executeDisc sm d inp pts).1 inp a).initial_time =
      (entryDisc d inp a).initial_time := hD1init
  have hmodel : initModel sm (entryDisc (executeDisc sm d inp pts).1 inp a).model
      (entryDisc (executeDisc sm d inp pts).1 inp a).initial_time =
      initModel sm (entryDisc d inp a).model (entryDisc d inp a).initial_time := by
    rw [initModel, initModel, hreset (entryDisc (executeDisc sm d inp pts).1 inp a).model
      (entryDisc d inp a).model, hinit21]
  have hfns21 : (entryDisc (executeDisc sm d inp pts).1 inp a).names_to_time_functions =
      (entryDisc d inp a).names_to_time_functions := by
    show entryTimeFunctions (filterInputs (executeDisc sm d inp pts).1 inp) =
      entryTimeFunctions (filterInputs d inp)
    rw [hfiD1]
  have hcols := runColumns_congr sm (entryDisc (executeDisc sm d inp pts).1 inp a)
    (entryDisc d inp a) pts hD1outs hfns21 hD1refs hD1init hmodel hgid
  refine ⟨hE1err, ?_, ?_, ?_⟩
  · rw [hE2]
    exact he2
  · rw [hE2, htm2, hE1, htm1]
  · rw [hE2, hloc2, hcols, hE1, hloc1]

/-- Witness for C6 on a concrete restarting discipline with no inputs. -/
theorem C6_restart_deterministic_witness :
    (executeDisc unitSlave discC6 [] []).2 = none ∧
    (executeDisc unitSlave (executeDisc unitSlave discC6 [] []).1 [] []).2 = none ∧
    (executeDisc unitSlave (executeDisc unitSlave discC6 [] []).1 [] []).1.time =
      (executeDisc unitSlave discC6 [] []).1.time ∧
    alist_get (executeDisc unitSlave
        (executeDisc unitSlave discC6 [] []).1 [] []).1.local_data "time" =
      alist_get (executeDisc unitSlave discC6 [] []).1.local_data "time" :=
  C6_restart_deterministic unitSlave discC6 [] [] 2 "time"
    (fun _ _ => rfl) rfl rfl rfl rfl
    (fun m hm => absurd hm (List.not_mem_nil m))
    (fun p hp => absurd hp (List.not_mem_nil p))
    (List.mem_cons_self _ _)

end GemseoFmu